import Mathlib

/-!
Verification of the yazi file-task planner and executor
(src/yazi-scheduler/src/file/file.rs) and the notify push command
(src/yazi-core/src/notify/commands/push.rs), as a shallow embedding.

Paths are modelled as lists of components; filesystem outcomes (chunk
streams, removal results, metadata reads) are explicit oracle inputs, so
every function is the pure shape of the corresponding Rust code over those
oracles.
-/

namespace Yazi

/-- A filesystem path, as its list of components. -/
abbrev Path := List String

/-- The kind a metadata read reports for an entry. -/
inductive FileKind where
  | file
  | symlink
  | dir
deriving Repr, DecidableEq

/-- Result of a metadata read: entry kind plus byte length. -/
structure Metadata where
  kind : FileKind
  len : Nat
deriving Repr, DecidableEq

/-- Error kinds distinguished by the code: not-found versus anything else. -/
inductive ErrKind where
  | notFound
  | other
deriving Repr, DecidableEq

/-- An I/O error: its kind and its raw OS error code, mirroring
std::io::Error::kind and raw_os_error. -/
structure IoErr where
  kind : ErrKind
  os : Option Nat
deriving Repr, DecidableEq

/-- Progress events sent on the one-way channel to the aggregator. -/
inductive TaskProg where
  | New (id : Nat) (total : Nat)
  | Adv (id : Nat) (files : Nat) (bytes : Nat)
  | Succ (id : Nat)
  | Fail (id : Nat) (msg : String)
  | Log (id : Nat) (msg : String)
deriving Repr, DecidableEq

/-- The task id an event carries. -/
def TaskProg.tid : TaskProg → Nat
  | TaskProg.New i _ => i
  | TaskProg.Adv i _ _ => i
  | TaskProg.Succ i => i
  | TaskProg.Fail i _ => i
  | TaskProg.Log i _ => i

/-- Modelled from the spec: the dispatch-queue priority tiers. The numeric
constants LOW and NORMAL live in the scheduler crate outside the sources at
hand; the spec describes two distinct tiers, low (bulk copy, trash) and
elevated (link creation, delete). -/
inductive Prio where
  | low
  | normal
deriving Repr, DecidableEq

/-- The low tier constant. -/
def LOW : Prio := Prio.low

/-- The elevated tier constant. -/
def NORMAL : Prio := Prio.normal

/-- FileOpPaste: copy one regular file. -/
structure FileOpPaste where
  id : Nat
  from_ : Path
  to_ : Path
  cut : Bool
  follow : Bool
  retry : Nat
deriving Repr, DecidableEq

/-- FileOpLink: create one symlink. -/
structure FileOpLink where
  id : Nat
  from_ : Path
  to_ : Path
  meta : Option Metadata
  resolve : Bool
  relative : Bool
  delete : Bool
deriving Repr, DecidableEq

/-- FileOpDelete: remove one file. -/
structure FileOpDelete where
  id : Nat
  target : Path
  length : Nat
deriving Repr, DecidableEq

/-- FileOpTrash: move one entry to the system trash. -/
structure FileOpTrash where
  id : Nat
  target : Path
  length : Nat
deriving Repr, DecidableEq

/-- The leaf-operation tagged union. -/
inductive FileOp where
  | paste (t : FileOpPaste)
  | link (t : FileOpLink)
  | delete (t : FileOpDelete)
  | trash (t : FileOpTrash)
deriving Repr, DecidableEq

/-- One enqueue onto the dispatch queue: the operation, the priority it was
sent at, and the byte length read from metadata at enqueue time (the same
value reported in the accompanying New event, where one is sent). -/
structure Enq where
  op : FileOp
  prio : Prio
  len : Nat
deriving Repr, DecidableEq

/-- FileOpPaste::to_link. -/
def FileOpPaste.to_link (t : FileOpPaste) (meta : Metadata) : FileOpLink :=
  { id := t.id, from_ := t.from_, to_ := t.to_, meta := some meta,
    resolve := true, relative := false, delete := t.cut }

/-- Stand-in for the formatted message of the paste-walk Fail events. -/
def pasteFailMsg : String := "An error occurred while pasting"

/-- Stand-in for the formatted message of the paste retry Log event. -/
def pasteRetryMsg : String := "Paste task retry"

/-- Stand-in for the formatted message of the delete Fail event. -/
def deleteFailMsg : String := "Delete task failed"

/-- Stand-in for the formatted message of the link partial-done Log event. -/
def linkPartialMsg : String := "Link task partially done"

/-- File::work, FileOp::Delete arm. removeRes is the outcome of
fs::remove_file on the target (none = Ok); metaObs says whether
fs::symlink_metadata on the target still succeeds afterwards. Returns the
progress events sent and the error propagated out of the arm, if any. -/
def workDelete (t : FileOpDelete) (removeRes : Option IoErr) (metaObs : Bool) :
    List TaskProg × Option IoErr :=
  match removeRes with
  | none => ([TaskProg.Adv t.id 1 t.length], none)
  | some e =>
      if e.kind ≠ ErrKind.notFound ∧ metaObs = true then
        ([TaskProg.Fail t.id deleteFailMsg], some e)
      else
        ([TaskProg.Adv t.id 1 t.length], none)

/-- The fatality condition of claim C2, written from the claim words for
comparison with workDelete: fatal when removal fails with anything other
than not-found, or when it fails with not-found but stale link metadata is
still observable. -/
def deleteFatalClaim (e : IoErr) (metaObs : Bool) : Prop :=
  e.kind ≠ ErrKind.notFound ∨ (e.kind = ErrKind.notFound ∧ metaObs = true)

instance (e : IoErr) (b : Bool) : Decidable (deleteFatalClaim e b) := by
  unfold deleteFatalClaim
  infer_instance

/-- One received item of the copy_with_progress stream. -/
inductive ChunkRes where
  | ok (n : Nat)
  | err (e : IoErr)
deriving Repr, DecidableEq

/-- How one dispatch of a Paste leaf operation ends: normally, by
re-enqueueing an updated operation at some priority, or fatally. -/
inductive PasteOut where
  | done
  | reenq (t : FileOpPaste) (p : Prio)
  | fatal (e : IoErr)
deriving Repr, DecidableEq

/-- The receive loop of File::work, FileOp::Paste arm: consume the chunk
results of copy_with_progress in order. maxRetry models
TASKS.bizarre_retry. The terminating Adv(id, 1, 0) is sent when the loop
breaks or the stream ends, and skipped on re-enqueue and on fatal error,
exactly as in the source. -/
def pasteLoop (maxRetry : Nat) (t : FileOpPaste) :
    List ChunkRes → List TaskProg × PasteOut
  | [] => ([TaskProg.Adv t.id 1 0], PasteOut.done)
  | ChunkRes.ok 0 :: _ => ([TaskProg.Adv t.id 1 0], PasteOut.done)
  | ChunkRes.ok (n+1) :: rest =>
      let r := pasteLoop maxRetry t rest
      (TaskProg.Adv t.id 0 (n+1) :: r.1, r.2)
  | ChunkRes.err e :: _ =>
      if e.kind = ErrKind.notFound then
        ([TaskProg.Adv t.id 1 0], PasteOut.done)
      else if t.retry < maxRetry ∧ (e.os = some 1 ∨ e.os = some 93) then
        ([TaskProg.Log t.id pasteRetryMsg],
         PasteOut.reenq { t with retry := t.retry + 1 } LOW)
      else ([], PasteOut.fatal e)

/-- File::work, FileOp::Paste arm: remove any pre-existing destination
(tolerating not-found), then run the copy loop. -/
def workPaste (maxRetry : Nat) (t : FileOpPaste) (removeRes : Option IoErr)
    (chunks : List ChunkRes) : List TaskProg × PasteOut :=
  match removeRes with
  | some e =>
      if e.kind ≠ ErrKind.notFound then ([], PasteOut.fatal e)
      else pasteLoop maxRetry t chunks
  | none => pasteLoop maxRetry t chunks

/-- The oracle for one dispatch of a Paste operation: the outcome of the
destination pre-removal and the chunk stream of the copy. -/
structure PasteScript where
  removeRes : Option IoErr
  chunks : List ChunkRes
deriving Repr, DecidableEq

/-- How a chain of Paste dispatches ends. -/
inductive RunEnd where
  | completed
  | failed (e : IoErr)
  | starved
deriving Repr, DecidableEq

/-- Dispatch a Paste leaf operation repeatedly, following re-enqueues: each
script drives one attempt. Returns all progress events, the operation value
of the last attempt made, the number of attempts, and how the run ended
(starved = the scripts ran out while a re-enqueue was still pending). -/
def runPasteOp (maxRetry : Nat) (t : FileOpPaste) :
    List PasteScript → List TaskProg × FileOpPaste × Nat × RunEnd
  | [] => ([], t, 0, RunEnd.starved)
  | s :: rest =>
      match workPaste maxRetry t s.removeRes s.chunks with
      | (ev, PasteOut.done) => (ev, t, 1, RunEnd.completed)
      | (ev, PasteOut.fatal e) => (ev, t, 1, RunEnd.failed e)
      | (ev, PasteOut.reenq t' _) =>
          let r := runPasteOp maxRetry t' rest
          (ev ++ r.1, r.2.1, r.2.2.1 + 1, r.2.2.2)

/-- A source filesystem entry as the planner observes it through its
metadata and directory reads. badMeta is an entry whose per-entry metadata
read fails; a dir carries two oracles: whether creating its mirrored
destination directory succeeds or reports already-exists (mkdirOk), and
whether listing it succeeds (listOk). -/
inductive Ent where
  | file (name : String) (len : Nat)
  | symlink (name : String) (len : Nat)
  | badMeta (name : String)
  | dir (name : String) (mkdirOk : Bool) (listOk : Bool) (children : List Ent)

mutual

/-- Node count of an entry, the walk termination measure. -/
def entSize : Ent → Nat
  | Ent.file _ _ => 1
  | Ent.symlink _ _ => 1
  | Ent.badMeta _ => 1
  | Ent.dir _ _ _ cs => 1 + entsSize cs

/-- Node count of a list of entries. -/
def entsSize : List Ent → Nat
  | [] => 0
  | e :: es => entSize e + entsSize es

end

/-- A directory pending in the walk worklist: its source path and its
oracles and children. -/
structure PendDir where
  path : Path
  mkdirOk : Bool
  listOk : Bool
  children : List Ent

/-- Termination measure of a worklist. -/
def pendSize : List PendDir → Nat
  | [] => 0
  | d :: rest => 1 + entsSize d.children + pendSize rest

theorem pendSize_append (a b : List PendDir) :
    pendSize (a ++ b) = pendSize a + pendSize b := by
  induction a with
  | nil => simp [pendSize]
  | cons d rest ih => simp [pendSize, ih]; omega

/-- Process the listed entries of one source directory during File::paste:
srcPath is that directory, dest its mirrored destination. Returns the
progress events sent, the operations enqueued, and the subdirectories
appended to the pending queue, each in entry order. The base task t keeps
the id, cut, follow and retry fields that the mutated-and-cloned task
carries into every enqueued operation. -/
def pasteEnts (t : FileOpPaste) (srcPath dest : Path) :
    List Ent → List TaskProg × List Enq × List PendDir
  | [] => ([], [], [])
  | e :: es =>
      let r := pasteEnts t srcPath dest es
      match e with
      | Ent.badMeta _ =>
          (TaskProg.New t.id 0 :: TaskProg.Fail t.id pasteFailMsg :: r.1,
           r.2.1, r.2.2)
      | Ent.dir n mk lk cs =>
          (r.1, r.2.1, ⟨srcPath ++ [n], mk, lk, cs⟩ :: r.2.2)
      | Ent.file n len =>
          (TaskProg.New t.id len :: r.1,
           ⟨FileOp.paste { t with from_ := srcPath ++ [n], to_ := dest ++ [n] },
            LOW, len⟩ :: r.2.1,
           r.2.2)
      | Ent.symlink n len =>
          (TaskProg.New t.id len :: r.1,
           ⟨FileOp.link (FileOpPaste.to_link
              { t with from_ := srcPath ++ [n], to_ := dest ++ [n] }
              ⟨FileKind.symlink, len⟩), NORMAL, len⟩ :: r.2.1,
           r.2.2)

theorem pasteEnts_pend_le (t : FileOpPaste) (srcPath dest : Path)
    (cs : List Ent) : pendSize (pasteEnts t srcPath dest cs).2.2 ≤ entsSize cs := by
  induction cs with
  | nil => simp [pasteEnts, pendSize]
  | cons e es ih =>
      cases e with
      | file n len => simp only [pasteEnts, entsSize, entSize]; omega
      | symlink n len => simp only [pasteEnts, entsSize, entSize]; omega
      | badMeta n => simp only [pasteEnts, entsSize, entSize]; omega
      | dir n mk lk cs' =>
          simp only [pasteEnts, entsSize, entSize, pendSize]
          omega

/-- The breadth-first directory walk of File::paste: pop the front pending
directory, mirror it under root (stripping skip components from the source
path), tolerate already-exists on creation; on a creation or listing error
send New(id, 0) and Fail and continue with the next pending directory;
otherwise process the entries and append the subdirectories to the back. -/
def pasteWalk (t : FileOpPaste) (root : Path) (skip : Nat) :
    (dirs : List PendDir) → List TaskProg × List Enq
  | [] => ([], [])
  | d :: rest =>
      if d.mkdirOk = false ∨ d.listOk = false then
        let r := pasteWalk t root skip rest
        (TaskProg.New t.id 0 :: TaskProg.Fail t.id pasteFailMsg :: r.1, r.2)
      else
        let p := pasteEnts t d.path (root ++ d.path.drop skip) d.children
        let r := pasteWalk t root skip (rest ++ p.2.2)
        (p.1 ++ r.1, p.2.1 ++ r.2)
termination_by dirs => pendSize dirs
decreasing_by
  · simp only [pendSize]
    omega
  · have h := pasteEnts_pend_le t d.path (root ++ d.path.drop skip) d.children
    simp only [pendSize_append, pendSize]
    omega

/-- File::paste after the cut fast-path: read the source metadata (an error
propagates), handle the two single-entry cases, or seed the walk with the
source directory and finish with Succ. src is the source entry as the
filesystem reports it to Self::metadata. -/
def pastePlanMain (t : FileOpPaste) (src : Ent) :
    Except IoErr (List TaskProg × List Enq) :=
  match src with
  | Ent.badMeta _ => Except.error ⟨ErrKind.other, none⟩
  | Ent.file _ len =>
      Except.ok ([TaskProg.New t.id len, TaskProg.Succ t.id],
        [⟨FileOp.paste t, LOW, len⟩])
  | Ent.symlink _ len =>
      Except.ok ([TaskProg.New t.id len, TaskProg.Succ t.id],
        [⟨FileOp.link (t.to_link ⟨FileKind.symlink, len⟩), NORMAL, len⟩])
  | Ent.dir _ mk lk cs =>
      let w := pasteWalk t t.to_ t.from_.length [⟨t.from_, mk, lk, cs⟩]
      Except.ok (w.1 ++ [TaskProg.Succ t.id], w.2)

/-- File::paste: when cut, first attempt the atomic rename (rn is its
outcome, none = Ok); on success or a not-found error report Succ at once
with nothing enqueued, otherwise fall through to the main path. -/
def pastePlan (t : FileOpPaste) (rn : Option IoErr) (src : Ent) :
    Except IoErr (List TaskProg × List Enq) :=
  if t.cut = true then
    match rn with
    | none => Except.ok ([TaskProg.Succ t.id], [])
    | some e =>
        if e.kind = ErrKind.notFound then Except.ok ([TaskProg.Succ t.id], [])
        else pastePlanMain t src
  else pastePlanMain t src

/-- Process the listed entries of one directory during File::delete:
per-entry metadata failures are skipped silently, subdirectories are
collected for the worklist in entry order, and every non-directory entry
yields one New event plus one Delete enqueue at NORMAL. -/
def deleteEnts (t : FileOpDelete) (srcPath : Path) :
    List Ent → List TaskProg × List Enq × List PendDir
  | [] => ([], [], [])
  | e :: es =>
      let r := deleteEnts t srcPath es
      match e with
      | Ent.badMeta _ => r
      | Ent.dir n mk lk cs =>
          (r.1, r.2.1, ⟨srcPath ++ [n], mk, lk, cs⟩ :: r.2.2)
      | Ent.file n len =>
          (TaskProg.New t.id len :: r.1,
           ⟨FileOp.delete { t with target := srcPath ++ [n], length := len },
            NORMAL, len⟩ :: r.2.1,
           r.2.2)
      | Ent.symlink n len =>
          (TaskProg.New t.id len :: r.1,
           ⟨FileOp.delete { t with target := srcPath ++ [n], length := len },
            NORMAL, len⟩ :: r.2.1,
           r.2.2)

theorem deleteEnts_pend_le (t : FileOpDelete) (srcPath : Path)
    (cs : List Ent) : pendSize (deleteEnts t srcPath cs).2.2 ≤ entsSize cs := by
  induction cs with
  | nil => simp [deleteEnts, pendSize]
  | cons e es ih =>
      cases e with
      | file n len => simp only [deleteEnts, entsSize, entSize]; omega
      | symlink n len => simp only [deleteEnts, entsSize, entSize]; omega
      | badMeta n => simp only [deleteEnts, entsSize, entSize]; omega
      | dir n mk lk cs' =>
          simp only [deleteEnts, entsSize, entSize, pendSize]
          omega

theorem pendSize_reverse (l : List PendDir) : pendSize l.reverse = pendSize l := by
  induction l with
  | nil => rfl
  | cons d rest ih => simp [pendSize, List.reverse_cons, pendSize_append, ih]; omega

/-- The depth-biased walk of File::delete: pop the front directory; a
listing failure skips it silently; otherwise its entries are processed and
the subdirectories just collected are pushed one by one to the front of
the worklist, which leaves them there in reverse entry order. -/
def deleteWalk (t : FileOpDelete) :
    (dirs : List PendDir) → List TaskProg × List Enq
  | [] => ([], [])
  | d :: rest =>
      if d.listOk = false then deleteWalk t rest
      else
        let p := deleteEnts t d.path d.children
        let r := deleteWalk t (p.2.2.reverse ++ rest)
        (p.1 ++ r.1, p.2.1 ++ r.2)
termination_by dirs => pendSize dirs
decreasing_by
  · simp only [pendSize]
    omega
  · have h := deleteEnts_pend_le t d.path d.children
    simp only [pendSize_append, pendSize_reverse, pendSize]
    omega

/-- File::delete: read the target symlink_metadata (an error propagates);
a non-directory target yields one New plus one Delete enqueue at NORMAL;
a directory target is walked, then Succ. -/
def deletePlan (t : FileOpDelete) (src : Ent) :
    Except IoErr (List TaskProg × List Enq) :=
  match src with
  | Ent.badMeta _ => Except.error ⟨ErrKind.other, none⟩
  | Ent.file _ len =>
      Except.ok ([TaskProg.New t.id len, TaskProg.Succ t.id],
        [⟨FileOp.delete { t with length := len }, NORMAL, len⟩])
  | Ent.symlink _ len =>
      Except.ok ([TaskProg.New t.id len, TaskProg.Succ t.id],
        [⟨FileOp.delete { t with length := len }, NORMAL, len⟩])
  | Ent.dir _ mk lk cs =>
      let w := deleteWalk t [⟨t.target, mk, lk, cs⟩]
      Except.ok (w.1 ++ [TaskProg.Succ t.id], w.2)

/-- The body of File::link, dispatching on the stored metadata option:
when absent it is read without following (metaRes is that read, an error
propagates and nothing is enqueued); then one New, one Link enqueue at
NORMAL, and Succ. -/
def linkPlanWith (t : FileOpLink) (metaRes : Except IoErr Metadata) :
    Option Metadata → Except IoErr (List TaskProg × List Enq)
  | some m =>
      Except.ok ([TaskProg.New t.id m.len, TaskProg.Succ t.id],
        [⟨FileOp.link t, NORMAL, m.len⟩])
  | none =>
      match metaRes with
      | Except.error e => Except.error e
      | Except.ok m =>
          Except.ok ([TaskProg.New t.id m.len, TaskProg.Succ t.id],
            [⟨FileOp.link { t with meta := some m }, NORMAL, m.len⟩])

/-- File::link. -/
def linkPlan (t : FileOpLink) (metaRes : Except IoErr Metadata) :
    Except IoErr (List TaskProg × List Enq) :=
  linkPlanWith t metaRes t.meta

/-- File::trash: the externally computed recursive size becomes the task
length; one New, one Trash enqueue at LOW, and Succ. -/
def trashPlan (t : FileOpTrash) (size : Nat) : List TaskProg × List Enq :=
  ([TaskProg.New t.id size, TaskProg.Succ t.id],
   [⟨FileOp.trash { t with length := size }, LOW, size⟩])

/-- File::remove_empty_dirs over the children of a directory: each child
directory is recursively pruned (when it can be listed, in which case the
recursive call also removes it if it ended up empty) and then removal is
attempted again by the parent; directory removal succeeds exactly on a
directory that is empty at that moment, so a child directory disappears
precisely when its (pruned) contents are empty. Non-directory entries are
never touched. -/
def pruneEnts : List Ent → List Ent
  | [] => []
  | Ent.dir n mk lk cs :: es =>
      let cs' := if lk then pruneEnts cs else cs
      if cs'.isEmpty then pruneEnts es else Ent.dir n mk lk cs' :: pruneEnts es
  | e :: es => e :: pruneEnts es

/-- File::remove_empty_dirs on a root entry: a listable directory has its
children pruned and is removed (none) exactly when nothing remains; an
unlistable directory returns before its own removal attempt; a
non-directory root returns at the failed listing. -/
def remove_empty_dirs (e : Ent) : Option Ent :=
  match e with
  | Ent.dir n mk lk cs =>
      if lk then
        let cs' := pruneEnts cs
        if cs'.isEmpty then none else some (Ent.dir n mk lk cs')
      else some (Ent.dir n mk lk cs)
  | e => some e

/-- The parent-directory component. -/
def upDir : String := ".."

/-- Modelled from the spec: the external path_relative_to helper of
yazi_shared, which rewrites a path relative to a base directory by
stripping the common leading components and ascending with parent
components (spec section 8: from /a/b/target relative to base /a/c gives
../b/target). No claim depends on its value; it only keeps workLink total
on the relative branch. -/
def path_relative_to : Path → Path → Path
  | s :: ss, b :: bs =>
      if s = b then path_relative_to ss bs
      else List.replicate (bs.length + 1) upDir ++ s :: ss
  | ss, bs => List.replicate bs.length upDir ++ ss

/-- The oracle for one dispatch of a Link operation: outcomes of read_link
on the source (when resolve), canonicalize of the destination parent (when
relative), remove_file on the destination, and the symlink creation call
(none = Ok). -/
structure LinkScript where
  readLinkRes : Except IoErr Path
  canonRes : Except IoErr Path
  removeRes : Option IoErr
  symlinkRes : Option IoErr
deriving Repr

/-- How one dispatch of a Link leaf operation ends. panicked models the
unconditional unwrap of task.meta hitting none. -/
inductive LinkOut where
  | panicked
  | done
  | fatal (e : IoErr)
deriving Repr, DecidableEq

/-- The source-resolution step of File::work, FileOp::Link arm. -/
inductive LinkSrcRes where
  | proceed (src : Path)
  | earlyDone
  | fatalErr (e : IoErr)
deriving Repr, DecidableEq

/-- When resolve, read the real link target: a vanished source is partial
success, any other error is fatal; without resolve use the stored path. -/
def linkResolveSrc (t : FileOpLink) (rl : Except IoErr Path) : LinkSrcRes :=
  if t.resolve then
    match rl with
    | Except.ok p => LinkSrcRes.proceed p
    | Except.error e =>
        if e.kind = ErrKind.notFound then LinkSrcRes.earlyDone
        else LinkSrcRes.fatalErr e
  else LinkSrcRes.proceed t.from_

/-- The destination pre-removal and symlink-creation tail of File::work,
FileOp::Link arm: the symlink call runs when the removal succeeded or
reported not-found; the best-effort source removal when delete is set sends
no event; then Adv(id, 1, len). -/
def linkSym (t : FileOpLink) (len : Nat) : Option IoErr → List TaskProg × LinkOut
  | some e => ([], LinkOut.fatal e)
  | none => ([TaskProg.Adv t.id 1 len], LinkOut.done)

/-- The remove_file step on the destination: any error other than
not-found is fatal, otherwise the symlink creation runs. -/
def linkCreate (t : FileOpLink) (len : Nat) (symlinkRes : Option IoErr) :
    Option IoErr → List TaskProg × LinkOut
  | some e =>
      if e.kind ≠ ErrKind.notFound then ([], LinkOut.fatal e)
      else linkSym t len symlinkRes
  | none => linkSym t len symlinkRes

/-- The relative-rewrite step: when relative, the destination parent is
canonicalized (an error is fatal) and the source rewritten relative to it. -/
def workLinkRel (t : FileOpLink) (s : LinkScript) (len : Nat) :
    Except IoErr Path → List TaskProg × LinkOut
  | Except.error e => ([], LinkOut.fatal e)
  | Except.ok _ => linkCreate t len s.symlinkRes s.removeRes

/-- Dispatch on the source-resolution outcome: a vanished source logs a
partial-done note and counts the unit as advanced; other read_link errors
are fatal; otherwise the relative step runs. -/
def workLinkSrc (t : FileOpLink) (s : LinkScript) (len : Nat) :
    LinkSrcRes → List TaskProg × LinkOut
  | LinkSrcRes.earlyDone =>
      ([TaskProg.Log t.id linkPartialMsg, TaskProg.Adv t.id 1 len], LinkOut.done)
  | LinkSrcRes.fatalErr e => ([], LinkOut.fatal e)
  | LinkSrcRes.proceed src0 =>
      workLinkRel t s len
        (if t.relative then Except.map (fun c => path_relative_to src0 c) s.canonRes
         else Except.ok src0)

/-- The meta unwrap at the head of the arm: none models the unwrap panic. -/
def workLinkMeta (t : FileOpLink) (s : LinkScript) :
    Option Metadata → List TaskProg × LinkOut
  | none => ([], LinkOut.panicked)
  | some meta => workLinkSrc t s meta.len (linkResolveSrc t s.readLinkRes)

/-- File::work, FileOp::Link arm (unix branch: a single symlink call),
written as the chain of its steps. The destination is assumed to have a
parent, as the source unwraps it. -/
def workLink (t : FileOpLink) (s : LinkScript) : List TaskProg × LinkOut :=
  workLinkMeta t s t.meta

/-- The oracle for executing one enqueued operation: a chain of attempt
scripts for a Paste, a single script for a Link. -/
inductive OpScript where
  | pasteS (attempts : List PasteScript)
  | linkS (s : LinkScript)
deriving Repr

/-- Execute one enqueued operation against its oracle, collecting the
progress events: a Paste is dispatched repeatedly following re-enqueues, a
Link is dispatched once. Other combinations produce no events. -/
def execEnq (maxRetry : Nat) (e : Enq) (s : OpScript) : List TaskProg :=
  match e.op, s with
  | FileOp.paste t, OpScript.pasteS attempts => (runPasteOp maxRetry t attempts).1
  | FileOp.link l, OpScript.linkS ls => (workLink l ls).1
  | _, _ => []

/-- Execute a list of enqueued operations against positional oracles,
concatenating all events; leaf operations of one task may complete in any
order, but the byte sums the claims quantify over are order-independent. -/
def runEnqs (maxRetry : Nat) : List Enq → List OpScript → List TaskProg
  | [], _ => []
  | _ :: _, [] => []
  | e :: es, s :: ss => execEnq maxRetry e s ++ runEnqs maxRetry es ss

/-- A clean oracle for one enqueued operation: a Paste completes in a
single attempt (tolerated pre-removal, nonzero chunks summing to the byte
length recorded at enqueue time, then the zero terminator), and a Link
dispatch ends normally. -/
def CleanFor (e : Enq) (s : OpScript) : Prop :=
  match e.op, s with
  | FileOp.paste _, OpScript.pasteS attempts =>
      ∃ (a : PasteScript) (ns : List Nat), attempts = [a] ∧
        (a.removeRes = none ∨ ∃ er, a.removeRes = some er ∧ er.kind = ErrKind.notFound) ∧
        a.chunks = ns.map ChunkRes.ok ++ [ChunkRes.ok 0] ∧
        (∀ n ∈ ns, n ≠ 0) ∧ ns.sum = e.len
  | FileOp.link l, OpScript.linkS ls => (workLink l ls).2 = LinkOut.done
  | _, _ => False

/-- Sum of the total_bytes of the New events of a trace. -/
def newSum : List TaskProg → Nat
  | [] => 0
  | TaskProg.New _ n :: r => n + newSum r
  | _ :: r => newSum r

/-- Sum of the bytes_delta of the Adv events of a trace. -/
def advSum : List TaskProg → Nat
  | [] => 0
  | TaskProg.Adv _ _ b :: r => b + advSum r
  | _ :: r => advSum r

/-- Number of Fail events in a trace. -/
def countFail : List TaskProg → Nat
  | [] => 0
  | TaskProg.Fail _ _ :: r => 1 + countFail r
  | _ :: r => countFail r

/-- Number of New events in a trace. -/
def countNew : List TaskProg → Nat
  | [] => 0
  | TaskProg.New _ _ :: r => 1 + countNew r
  | _ :: r => countNew r

/-- Traces in which every Fail event is immediately preceded by a
New(id, 0) event. -/
inductive FailsPaired (id : Nat) : List TaskProg → Prop
  | nil : FailsPaired id []
  | err (m : String) (ev : List TaskProg) : FailsPaired id ev →
      FailsPaired id (TaskProg.New id 0 :: TaskProg.Fail id m :: ev)
  | other (e : TaskProg) (ev : List TaskProg) :
      (∀ i m, e ≠ TaskProg.Fail i m) → FailsPaired id ev →
      FailsPaired id (e :: ev)

mutual

/-- The non-directory entries reachable from a list of entries through
listable directories with readable metadata: the leaf targets File::delete
turns into DeleteEntry operations, as source paths with byte lengths. -/
def entReach (basePath : Path) : Ent → List (Path × Nat)
  | Ent.file n len => [(basePath ++ [n], len)]
  | Ent.symlink n len => [(basePath ++ [n], len)]
  | Ent.badMeta _ => []
  | Ent.dir n _ lk cs => if lk then entsReach (basePath ++ [n]) cs else []

/-- entReach over a list of entries. -/
def entsReach (basePath : Path) : List Ent → List (Path × Nat)
  | [] => []
  | e :: es => entReach basePath e ++ entsReach basePath es

end

/-- The reachable non-directory entries of a worklist. -/
def pendReach : List PendDir → List (Path × Nat)
  | [] => []
  | d :: rest =>
      (if d.listOk then entsReach d.path d.children else []) ++ pendReach rest

/-- The targets and lengths of the Delete operations among enqueues. -/
def delTargets : List Enq → List (Path × Nat)
  | [] => []
  | e :: rest =>
      match e.op with
      | FileOp.delete d => (d.target, d.length) :: delTargets rest
      | _ => delTargets rest

mutual

/-- All non-directory nodes in an entry, transitively, in order. -/
def entNonDir : Ent → List Ent
  | Ent.dir _ _ _ cs => entsNonDir cs
  | e => [e]

/-- entNonDir over a list of entries. -/
def entsNonDir : List Ent → List Ent
  | [] => []
  | e :: es => entNonDir e ++ entsNonDir es

end

/-- entNonDir of an optional entry. -/
def optNonDir : Option Ent → List Ent
  | none => []
  | some e => entNonDir e

mutual

/-- The number of directory-level errors the paste walk meets inside a
listed directory: failed per-entry metadata reads, plus subdirectory
creation or listing failures, plus errors inside listable subdirectories. -/
def entsErrs : List Ent → Nat
  | [] => 0
  | Ent.badMeta _ :: es => 1 + entsErrs es
  | Ent.dir _ mk lk cs :: es => dirErrs mk lk cs + entsErrs es
  | _ :: es => entsErrs es

/-- The number of errors a pending directory contributes: one if its
destination cannot be created or it cannot be listed, otherwise the errors
among its entries. -/
def dirErrs (mk lk : Bool) (cs : List Ent) : Nat :=
  if mk = false ∨ lk = false then 1 else entsErrs cs

end

/-- The number of errors of a worklist. -/
def pendErrs : List PendDir → Nat
  | [] => 0
  | d :: rest => dirErrs d.mkdirOk d.listOk d.children + pendErrs rest

mutual

/-- The number of non-directory entries the paste walk reaches and turns
into a New event plus an enqueue. -/
def entsGoods : List Ent → Nat
  | [] => 0
  | Ent.file _ _ :: es => 1 + entsGoods es
  | Ent.symlink _ _ :: es => 1 + entsGoods es
  | Ent.badMeta _ :: es => entsGoods es
  | Ent.dir _ mk lk cs :: es => dirGoods mk lk cs + entsGoods es

/-- The reachable non-directory entries under one pending directory. -/
def dirGoods (mk lk : Bool) (cs : List Ent) : Nat :=
  if mk = false ∨ lk = false then 0 else entsGoods cs

end

/-- The reachable non-directory entries of a worklist. -/
def pendGoods : List PendDir → Nat
  | [] => 0
  | d :: rest => dirGoods d.mkdirOk d.listOk d.children + pendGoods rest

/-- The priority tier as a pure function of the operation variant, as the
code realises it: copy and trash at the low tier, link and delete at the
elevated tier. -/
def tierOf : FileOp → Prio
  | FileOp.paste _ => LOW
  | FileOp.trash _ => LOW
  | FileOp.link _ => NORMAL
  | FileOp.delete _ => NORMAL

/-- The shape of every operation File::paste enqueues: a Paste clone of
the planning task at LOW, or the to_link conversion of such a clone at
NORMAL. -/
def EnqProp (t : FileOpPaste) (e : Enq) : Prop :=
  (∃ p, e.op = FileOp.paste p ∧ e.prio = LOW ∧ p.id = t.id ∧
    p.cut = t.cut ∧ p.follow = t.follow ∧ p.retry = t.retry) ∨
  (∃ l, e.op = FileOp.link l ∧ e.prio = NORMAL ∧ l.id = t.id ∧
    l.meta = some ⟨FileKind.symlink, e.len⟩ ∧ l.resolve = true ∧
    l.relative = false ∧ l.delete = t.cut)

/-- Whether an entry is a directory. -/
def isDirEnt : Ent → Bool
  | Ent.dir _ _ _ _ => true
  | _ => false

/-- Claim C4 as the claim words have it, for comparison with pastePlan:
the rename fast-path is attempted exactly when cut is set and the source
entry is not a directory. -/
def pastePlanClaimC4 (t : FileOpPaste) (rn : Option IoErr) (src : Ent) :
    Except IoErr (List TaskProg × List Enq) :=
  if t.cut = true ∧ isDirEnt src = false then
    match rn with
    | none => Except.ok ([TaskProg.Succ t.id], [])
    | some e =>
        if e.kind = ErrKind.notFound then Except.ok ([TaskProg.Succ t.id], [])
        else pastePlanMain t src
  else pastePlanMain t src

/-- Claim C7 as the claim words have it, for comparison with pasteEnts: a
per-entry metadata error makes the planner continue with the next pending
directory, abandoning the remaining entries of the current one. -/
def pasteEntsClaim (t : FileOpPaste) (srcPath dest : Path) :
    List Ent → List TaskProg × List Enq × List PendDir
  | [] => ([], [], [])
  | Ent.badMeta _ :: _ =>
      ([TaskProg.New t.id 0, TaskProg.Fail t.id pasteFailMsg], [], [])
  | e :: es =>
      let r := pasteEntsClaim t srcPath dest es
      match e with
      | Ent.badMeta _ =>
          (TaskProg.New t.id 0 :: TaskProg.Fail t.id pasteFailMsg :: r.1,
           r.2.1, r.2.2)
      | Ent.dir n mk lk cs =>
          (r.1, r.2.1, ⟨srcPath ++ [n], mk, lk, cs⟩ :: r.2.2)
      | Ent.file n len =>
          (TaskProg.New t.id len :: r.1,
           ⟨FileOp.paste { t with from_ := srcPath ++ [n], to_ := dest ++ [n] },
            LOW, len⟩ :: r.2.1,
           r.2.2)
      | Ent.symlink n len =>
          (TaskProg.New t.id len :: r.1,
           ⟨FileOp.link (FileOpPaste.to_link
              { t with from_ := srcPath ++ [n], to_ := dest ++ [n] }
              ⟨FileKind.symlink, len⟩), NORMAL, len⟩ :: r.2.1,
           r.2.2)

theorem pasteEntsClaim_pend_le (t : FileOpPaste) (srcPath dest : Path)
    (cs : List Ent) :
    pendSize (pasteEntsClaim t srcPath dest cs).2.2 ≤ entsSize cs := by
  induction cs with
  | nil => simp [pasteEntsClaim, pendSize]
  | cons e es ih =>
      cases e with
      | file n len => simp only [pasteEntsClaim, entsSize, entSize]; omega
      | symlink n len => simp only [pasteEntsClaim, entsSize, entSize]; omega
      | badMeta n => simp only [pasteEntsClaim, entsSize, entSize, pendSize]; omega
      | dir n mk lk cs' =>
          simp only [pasteEntsClaim, entsSize, entSize, pendSize]
          omega

/-- The walk of pastePlanClaimC7: as pasteWalk but over pasteEntsClaim. -/
def pasteWalkClaim (t : FileOpPaste) (root : Path) (skip : Nat) :
    (dirs : List PendDir) → List TaskProg × List Enq
  | [] => ([], [])
  | d :: rest =>
      if d.mkdirOk = false ∨ d.listOk = false then
        let r := pasteWalkClaim t root skip rest
        (TaskProg.New t.id 0 :: TaskProg.Fail t.id pasteFailMsg :: r.1, r.2)
      else
        let p := pasteEntsClaim t d.path (root ++ d.path.drop skip) d.children
        let r := pasteWalkClaim t root skip (rest ++ p.2.2)
        (p.1 ++ r.1, p.2.1 ++ r.2)
termination_by dirs => pendSize dirs
decreasing_by
  · simp only [pendSize]
    omega
  · have h := pasteEntsClaim_pend_le t d.path (root ++ d.path.drop skip) d.children
    simp only [pendSize_append, pendSize]
    omega

/-- Claim C7 as the claim words have it at the planner level. -/
def pastePlanClaimC7 (t : FileOpPaste) (src : Ent) :
    Except IoErr (List TaskProg × List Enq) :=
  match src with
  | Ent.badMeta _ => Except.error ⟨ErrKind.other, none⟩
  | Ent.file _ len =>
      Except.ok ([TaskProg.New t.id len, TaskProg.Succ t.id],
        [⟨FileOp.paste t, LOW, len⟩])
  | Ent.symlink _ len =>
      Except.ok ([TaskProg.New t.id len, TaskProg.Succ t.id],
        [⟨FileOp.link (t.to_link ⟨FileKind.symlink, len⟩), NORMAL, len⟩])
  | Ent.dir _ mk lk cs =>
      let w := pasteWalkClaim t t.to_ t.from_.length [⟨t.from_, mk, lk, cs⟩]
      Except.ok (w.1 ++ [TaskProg.Succ t.id], w.2)

/-- A notify message: its remaining timeout and its creation instant, both
as plain naturals. -/
structure Message where
  timeout : Nat
  instant : Nat
deriving Repr, DecidableEq

/-- The notify state: the pending messages in arrival order. -/
structure Notify where
  messages : List Message
deriving Repr, DecidableEq

/-- Notify::push: now is the current instant. The pushed message timeout is
extended by the time elapsed since the first pending message was created
(zero when none is pending), the message is appended, and the update_notify
UI refresh is emitted; the returned flag records that emission. -/
def Notify.push (st : Notify) (msg : Message) (now : Nat) : Notify × Bool :=
  let base := (st.messages.head?.map Message.instant).getD now
  let msg' := { msg with timeout := msg.timeout + (now - base) }
  ({ messages := st.messages ++ [msg'] }, true)

/-- Sum of the enqueue-time byte lengths of a list of enqueues. -/
def enqLenSum : List Enq → Nat
  | [] => 0
  | e :: r => e.len + enqLenSum r

theorem newSum_append (a b : List TaskProg) :
    newSum (a ++ b) = newSum a + newSum b := by
  induction a with
  | nil => simp [newSum]
  | cons e r ih => cases e <;> simp [newSum, ih] <;> omega

theorem advSum_append (a b : List TaskProg) :
    advSum (a ++ b) = advSum a + advSum b := by
  induction a with
  | nil => simp [advSum]
  | cons e r ih => cases e <;> simp [advSum, ih] <;> omega

theorem countFail_append (a b : List TaskProg) :
    countFail (a ++ b) = countFail a + countFail b := by
  induction a with
  | nil => simp [countFail]
  | cons e r ih => cases e <;> simp [countFail, ih] <;> omega

theorem countNew_append (a b : List TaskProg) :
    countNew (a ++ b) = countNew a + countNew b := by
  induction a with
  | nil => simp [countNew]
  | cons e r ih => cases e <;> simp [countNew, ih] <;> omega

theorem enqLenSum_append (a b : List Enq) :
    enqLenSum (a ++ b) = enqLenSum a + enqLenSum b := by
  induction a with
  | nil => simp [enqLenSum]
  | cons e r ih => simp [enqLenSum, ih]; omega

theorem pendErrs_append (a b : List PendDir) :
    pendErrs (a ++ b) = pendErrs a + pendErrs b := by
  induction a with
  | nil => simp [pendErrs]
  | cons d r ih => simp [pendErrs, ih]; omega

theorem pendGoods_append (a b : List PendDir) :
    pendGoods (a ++ b) = pendGoods a + pendGoods b := by
  induction a with
  | nil => simp [pendGoods]
  | cons d r ih => simp [pendGoods, ih]; omega

theorem FailsPaired.append {id : Nat} {a b : List TaskProg}
    (ha : FailsPaired id a) (hb : FailsPaired id b) :
    FailsPaired id (a ++ b) := by
  induction ha with
  | nil => simpa using hb
  | err m ev _ ih => exact FailsPaired.err m _ ih
  | other e ev hne _ ih => exact FailsPaired.other e _ hne ih

theorem pasteEnts_enqProp (t : FileOpPaste) (sp d : Path) (cs : List Ent) :
    ∀ e ∈ (pasteEnts t sp d cs).2.1, EnqProp t e := by
  induction cs with
  | nil => intro e he; simp [pasteEnts] at he
  | cons c cs ih =>
      intro e he
      cases c with
      | file n len =>
          simp only [pasteEnts, List.mem_cons] at he
          rcases he with h | h
          · subst h
            exact Or.inl ⟨{ t with from_ := sp ++ [n], to_ := d ++ [n] },
              rfl, rfl, rfl, rfl, rfl, rfl⟩
          · exact ih e h
      | symlink n len =>
          simp only [pasteEnts, List.mem_cons] at he
          rcases he with h | h
          · subst h
            exact Or.inr ⟨FileOpPaste.to_link
              { t with from_ := sp ++ [n], to_ := d ++ [n] } ⟨FileKind.symlink, len⟩,
              rfl, rfl, rfl, rfl, rfl, rfl, rfl⟩
          · exact ih e h
      | badMeta n =>
          simp only [pasteEnts] at he
          exact ih e he
      | dir n mk lk cs' =>
          simp only [pasteEnts] at he
          exact ih e he

theorem pasteWalk_enqProp (t : FileOpPaste) (root : Path) (skip : Nat)
    (ds : List PendDir) : ∀ e ∈ (pasteWalk t root skip ds).2, EnqProp t e := by
  induction ds using pasteWalk.induct t root skip with
  | case1 => intro e he; simp [pasteWalk] at he
  | case2 d rest h ih =>
      intro e he
      rw [pasteWalk, if_pos h] at he
      exact ih e he
  | case3 d rest h p ih =>
      intro e he
      rw [pasteWalk, if_neg h] at he
      simp only [List.mem_append] at he
      rcases he with h' | h'
      · exact pasteEnts_enqProp t d.path (root ++ d.path.drop skip) d.children e h'
      · exact ih e h'

theorem pasteEnts_newSum (t : FileOpPaste) (sp d : Path) (cs : List Ent) :
    newSum (pasteEnts t sp d cs).1 = enqLenSum (pasteEnts t sp d cs).2.1 := by
  induction cs with
  | nil => simp [pasteEnts, newSum, enqLenSum]
  | cons c cs ih =>
      cases c <;> simp only [pasteEnts, newSum, enqLenSum] <;> omega

theorem pasteEnts_advSum (t : FileOpPaste) (sp d : Path) (cs : List Ent) :
    advSum (pasteEnts t sp d cs).1 = 0 := by
  induction cs with
  | nil => simp [pasteEnts, advSum]
  | cons c cs ih =>
      cases c <;> simp only [pasteEnts, advSum] <;> omega

theorem pasteEnts_tid (t : FileOpPaste) (sp d : Path) (cs : List Ent) :
    ∀ x ∈ (pasteEnts t sp d cs).1, x.tid = t.id := by
  induction cs with
  | nil => intro x hx; simp [pasteEnts] at hx
  | cons c cs ih =>
      intro x hx
      cases c with
      | file n len =>
          simp only [pasteEnts, List.mem_cons] at hx
          rcases hx with h | h
          · subst h; rfl
          · exact ih x h
      | symlink n len =>
          simp only [pasteEnts, List.mem_cons] at hx
          rcases hx with h | h
          · subst h; rfl
          · exact ih x h
      | badMeta n =>
          simp only [pasteEnts, List.mem_cons] at hx
          rcases hx with h | h | h
          · subst h; rfl
          · subst h; rfl
          · exact ih x h
      | dir n mk lk cs' =>
          simp only [pasteEnts] at hx
          exact ih x hx

theorem pasteEnts_failsPaired (t : FileOpPaste) (sp d : Path) (cs : List Ent) :
    FailsPaired t.id (pasteEnts t sp d cs).1 := by
  induction cs with
  | nil => exact FailsPaired.nil
  | cons c cs ih =>
      cases c with
      | file n len =>
          exact FailsPaired.other _ _ (by intro i m h; cases h) ih
      | symlink n len =>
          exact FailsPaired.other _ _ (by intro i m h; cases h) ih
      | badMeta n => exact FailsPaired.err _ _ ih
      | dir n mk lk cs' => exact ih

theorem pasteEnts_countFail (t : FileOpPaste) (sp d : Path) (cs : List Ent) :
    countFail (pasteEnts t sp d cs).1 + pendErrs (pasteEnts t sp d cs).2.2 =
      entsErrs cs := by
  induction cs with
  | nil => simp [pasteEnts, countFail, pendErrs, entsErrs]
  | cons c cs ih =>
      cases c with
      | file n len => simp only [pasteEnts, countFail, entsErrs]; omega
      | symlink n len => simp only [pasteEnts, countFail, entsErrs]; omega
      | badMeta n => simp only [pasteEnts, countFail, entsErrs]; omega
      | dir n mk lk cs' =>
          simp only [pasteEnts, countFail, entsErrs, pendErrs]
          omega

theorem pasteEnts_countNew (t : FileOpPaste) (sp d : Path) (cs : List Ent) :
    countNew (pasteEnts t sp d cs).1 + pendErrs (pasteEnts t sp d cs).2.2 +
      pendGoods (pasteEnts t sp d cs).2.2 = entsErrs cs + entsGoods cs := by
  induction cs with
  | nil => simp [pasteEnts, countNew, pendErrs, pendGoods, entsErrs, entsGoods]
  | cons c cs ih =>
      cases c with
      | file n len => simp only [pasteEnts, countNew, entsErrs, entsGoods]; omega
      | symlink n len => simp only [pasteEnts, countNew, entsErrs, entsGoods]; omega
      | badMeta n => simp only [pasteEnts, countNew, entsErrs, entsGoods]; omega
      | dir n mk lk cs' =>
          simp only [pasteEnts, countNew, entsErrs, entsGoods, pendErrs, pendGoods]
          omega

theorem pasteWalk_newSum (t : FileOpPaste) (root : Path) (skip : Nat)
    (ds : List PendDir) :
    newSum (pasteWalk t root skip ds).1 = enqLenSum (pasteWalk t root skip ds).2 := by
  induction ds using pasteWalk.induct t root skip with
  | case1 => simp [pasteWalk, newSum, enqLenSum]
  | case2 d rest h ih =>
      rw [pasteWalk, if_pos h]
      simp only [newSum]
      omega
  | case3 d rest h p ih =>
      have ih2 : newSum (pasteWalk t root skip
            (rest ++ (pasteEnts t d.path (root ++ d.path.drop skip) d.children).2.2)).1 =
          enqLenSum (pasteWalk t root skip
            (rest ++ (pasteEnts t d.path (root ++ d.path.drop skip) d.children).2.2)).2 := ih
      rw [pasteWalk, if_neg h]
      simp only [newSum_append, enqLenSum_append, ih2, pasteEnts_newSum]

theorem pasteWalk_advSum (t : FileOpPaste) (root : Path) (skip : Nat)
    (ds : List PendDir) : advSum (pasteWalk t root skip ds).1 = 0 := by
  induction ds using pasteWalk.induct t root skip with
  | case1 => simp [pasteWalk, advSum]
  | case2 d rest h ih =>
      rw [pasteWalk, if_pos h]
      simp only [advSum]
      omega
  | case3 d rest h p ih =>
      have ih2 : advSum (pasteWalk t root skip
            (rest ++ (pasteEnts t d.path (root ++ d.path.drop skip) d.children).2.2)).1 = 0 := ih
      rw [pasteWalk, if_neg h]
      simp only [advSum_append, ih2, pasteEnts_advSum]

theorem pasteWalk_tid (t : FileOpPaste) (root : Path) (skip : Nat)
    (ds : List PendDir) : ∀ x ∈ (pasteWalk t root skip ds).1, x.tid = t.id := by
  induction ds using pasteWalk.induct t root skip with
  | case1 => intro x hx; simp [pasteWalk] at hx
  | case2 d rest h ih =>
      intro x hx
      rw [pasteWalk, if_pos h] at hx
      simp only [List.mem_cons] at hx
      rcases hx with h' | h' | h'
      · subst h'; rfl
      · subst h'; rfl
      · exact ih x h'
  | case3 d rest h p ih =>
      intro x hx
      rw [pasteWalk, if_neg h] at hx
      simp only [List.mem_append] at hx
      rcases hx with h' | h'
      · exact pasteEnts_tid t d.path (root ++ d.path.drop skip) d.children x h'
      · exact ih x h'

theorem pasteWalk_failsPaired (t : FileOpPaste) (root : Path) (skip : Nat)
    (ds : List PendDir) : FailsPaired t.id (pasteWalk t root skip ds).1 := by
  induction ds using pasteWalk.induct t root skip with
  | case1 => rw [pasteWalk]; exact FailsPaired.nil
  | case2 d rest h ih =>
      rw [pasteWalk, if_pos h]
      exact FailsPaired.err _ _ ih
  | case3 d rest h p ih =>
      rw [pasteWalk, if_neg h]
      exact FailsPaired.append (pasteEnts_failsPaired t d.path _ d.children) ih

theorem pasteWalk_countFail (t : FileOpPaste) (root : Path) (skip : Nat)
    (ds : List PendDir) : countFail (pasteWalk t root skip ds).1 = pendErrs ds := by
  induction ds using pasteWalk.induct t root skip with
  | case1 => simp [pasteWalk, countFail, pendErrs]
  | case2 d rest h ih =>
      rw [pasteWalk, if_pos h]
      simp only [countFail, pendErrs, dirErrs, if_pos h]
      omega
  | case3 d rest h p ih =>
      have ih2 : countFail (pasteWalk t root skip
            (rest ++ (pasteEnts t d.path (root ++ d.path.drop skip) d.children).2.2)).1 =
          pendErrs (rest ++ (pasteEnts t d.path (root ++ d.path.drop skip) d.children).2.2) := ih
      rw [pasteWalk, if_neg h]
      have hl := pasteEnts_countFail t d.path (root ++ d.path.drop skip) d.children
      rw [pendErrs_append] at ih2
      simp only [countFail_append, ih2, pendErrs, dirErrs, if_neg h]
      omega

theorem pasteWalk_countNew (t : FileOpPaste) (root : Path) (skip : Nat)
    (ds : List PendDir) :
    countNew (pasteWalk t root skip ds).1 = pendErrs ds + pendGoods ds := by
  induction ds using pasteWalk.induct t root skip with
  | case1 => simp [pasteWalk, countNew, pendErrs, pendGoods]
  | case2 d rest h ih =>
      rw [pasteWalk, if_pos h]
      simp only [countNew, pendErrs, pendGoods, dirErrs, dirGoods, if_pos h]
      omega
  | case3 d rest h p ih =>
      have ih2 : countNew (pasteWalk t root skip
            (rest ++ (pasteEnts t d.path (root ++ d.path.drop skip) d.children).2.2)).1 =
          pendErrs (rest ++ (pasteEnts t d.path (root ++ d.path.drop skip) d.children).2.2) +
          pendGoods (rest ++ (pasteEnts t d.path (root ++ d.path.drop skip) d.children).2.2) := ih
      rw [pasteWalk, if_neg h]
      have hl := pasteEnts_countNew t d.path (root ++ d.path.drop skip) d.children
      rw [pendErrs_append] at ih2
      rw [pendGoods_append] at ih2
      simp only [countNew_append, ih2, pendErrs, pendGoods, dirErrs, dirGoods, if_neg h]
      omega

theorem delTargets_append (a b : List Enq) :
    delTargets (a ++ b) = delTargets a ++ delTargets b := by
  induction a with
  | nil => simp [delTargets]
  | cons e r ih =>
      cases h : e.op <;> simp [delTargets, h, ih]

theorem pendReach_append (a b : List PendDir) :
    pendReach (a ++ b) = pendReach a ++ pendReach b := by
  induction a with
  | nil => simp [pendReach]
  | cons d r ih => simp [pendReach, ih]

theorem pendReach_reverse_perm (l : List PendDir) :
    List.Perm (pendReach l.reverse) (pendReach l) := by
  induction l with
  | nil => exact List.Perm.refl _
  | cons d rest ih =>
      rw [List.reverse_cons, pendReach_append]
      have h2 : List.Perm (pendReach rest.reverse ++ pendReach [d])
          (pendReach [d] ++ pendReach rest.reverse) := List.perm_append_comm
      have h3 : List.Perm (pendReach [d] ++ pendReach rest.reverse)
          (pendReach [d] ++ pendReach rest) := List.Perm.append_left _ ih
      have h4 := h2.trans h3
      simpa [pendReach] using h4

theorem deleteEnts_shape (t : FileOpDelete) (sp : Path) (cs : List Ent) :
    ∀ e ∈ (deleteEnts t sp cs).2.1, ∃ d', e.op = FileOp.delete d' ∧
      e.prio = NORMAL ∧ d'.id = t.id ∧ d'.length = e.len := by
  induction cs with
  | nil => intro e he; simp [deleteEnts] at he
  | cons c cs ih =>
      intro e he
      cases c with
      | file n len =>
          simp only [deleteEnts, List.mem_cons] at he
          rcases he with h | h
          · subst h
            exact ⟨{ t with target := sp ++ [n], length := len }, rfl, rfl, rfl, rfl⟩
          · exact ih e h
      | symlink n len =>
          simp only [deleteEnts, List.mem_cons] at he
          rcases he with h | h
          · subst h
            exact ⟨{ t with target := sp ++ [n], length := len }, rfl, rfl, rfl, rfl⟩
          · exact ih e h
      | badMeta n =>
          simp only [deleteEnts] at he
          exact ih e he
      | dir n mk lk cs' =>
          simp only [deleteEnts] at he
          exact ih e he

theorem deleteEnts_perm (t : FileOpDelete) (sp : Path) (cs : List Ent) :
    List.Perm
      (delTargets (deleteEnts t sp cs).2.1 ++ pendReach (deleteEnts t sp cs).2.2)
      (entsReach sp cs) := by
  induction cs with
  | nil => simp [deleteEnts, delTargets, pendReach, entsReach]
  | cons c cs ih =>
      cases c with
      | file n len =>
          simp only [deleteEnts, delTargets, entsReach, entReach, FileOp.delete,
            List.cons_append, List.singleton_append]
          exact List.Perm.cons _ ih
      | symlink n len =>
          simp only [deleteEnts, delTargets, entsReach, entReach, FileOp.delete,
            List.cons_append, List.singleton_append]
          exact List.Perm.cons _ ih
      | badMeta n =>
          simp only [deleteEnts, entsReach, entReach, List.nil_append]
          exact ih
      | dir n mk lk cs' =>
          simp only [deleteEnts, entsReach, entReach, pendReach]
          rw [← List.append_assoc]
          refine (List.Perm.append_right _ List.perm_append_comm).trans ?_
          rw [List.append_assoc]
          exact List.Perm.append_left _ ih

theorem deleteWalk_shape (t : FileOpDelete) (ds : List PendDir) :
    ∀ e ∈ (deleteWalk t ds).2, ∃ d', e.op = FileOp.delete d' ∧
      e.prio = NORMAL ∧ d'.id = t.id ∧ d'.length = e.len := by
  induction ds using deleteWalk.induct t with
  | case1 => intro e he; rw [deleteWalk] at he; simp at he
  | case2 d rest h ih =>
      intro e he
      rw [deleteWalk, if_pos h] at he
      exact ih e he
  | case3 d rest h p ih =>
      intro e he
      rw [deleteWalk, if_neg h] at he
      simp only [List.mem_append] at he
      rcases he with h' | h'
      · exact deleteEnts_shape t d.path d.children e h'
      · exact ih e h'

theorem deleteWalk_perm (t : FileOpDelete) (ds : List PendDir) :
    List.Perm (delTargets (deleteWalk t ds).2) (pendReach ds) := by
  induction ds using deleteWalk.induct t with
  | case1 => rw [deleteWalk]; simp [delTargets, pendReach]
  | case2 d rest h ih =>
      rw [deleteWalk, if_pos h]
      simpa [pendReach, h] using ih
  | case3 d rest h p ih =>
      have ih2 : List.Perm
          (delTargets (deleteWalk t
            ((deleteEnts t d.path d.children).2.2.reverse ++ rest)).2)
          (pendReach ((deleteEnts t d.path d.children).2.2.reverse ++ rest)) := ih
      rw [deleteWalk, if_neg h]
      rw [pendReach_append] at ih2
      have hrev : List.Perm
          (pendReach (deleteEnts t d.path d.children).2.2.reverse ++ pendReach rest)
          (pendReach (deleteEnts t d.path d.children).2.2 ++ pendReach rest) :=
        List.Perm.append_right _ (pendReach_reverse_perm _)
      have hstep := ih2.trans hrev
      have hlk : d.listOk = true := by
        cases hd : d.listOk with
        | false => exact absurd hd h
        | true => rfl
      simp only [pendReach, hlk, if_true]
      rw [delTargets_append]
      refine (List.Perm.append_left _ hstep).trans ?_
      rw [← List.append_assoc]
      exact List.Perm.append_right _ (deleteEnts_perm t d.path d.children)

theorem pruneEnts_nonDir (cs : List Ent) :
    entsNonDir (pruneEnts cs) = entsNonDir cs := by
  induction cs using pruneEnts.induct with
  | case1 => simp [pruneEnts]
  | case2 n mk lk cs es cs' hemp ihcs ihes =>
      cases lk with
      | false =>
          have hcs : cs = [] := by simpa using hemp
          subst hcs
          simpa [pruneEnts, entsNonDir, entNonDir] using ihes
      | true =>
          have hcs : pruneEnts cs = [] := by simpa using hemp
          have h0 : entsNonDir cs = [] := by
            rw [← ihcs, hcs]
            rfl
          simp [pruneEnts, hcs, entsNonDir, entNonDir, ihes, h0]
  | case3 n mk lk cs es cs' hemp ihcs ihes =>
      cases lk with
      | false =>
          have hne : cs.isEmpty = false := by simpa using hemp
          simp [pruneEnts, hne, entsNonDir, entNonDir, ihes]
      | true =>
          have hne : (pruneEnts cs).isEmpty = false := by simpa using hemp
          simp [pruneEnts, hne, entsNonDir, entNonDir, ihcs, ihes]
  | case4 e es hne ih =>
      cases e with
      | file n len => simp [pruneEnts, entsNonDir, entNonDir, ih]
      | symlink n len => simp [pruneEnts, entsNonDir, entNonDir, ih]
      | badMeta n => simp [pruneEnts, entsNonDir, entNonDir, ih]
      | dir n mk lk cs' => exact absurd rfl (hne n mk lk cs')

theorem remove_empty_dirs_nonDir (e : Ent) :
    optNonDir (remove_empty_dirs e) = entNonDir e := by
  cases e with
  | file n len => rfl
  | symlink n len => rfl
  | badMeta n => rfl
  | dir n mk lk cs =>
      cases lk with
      | false => simp [remove_empty_dirs, optNonDir, entNonDir]
      | true =>
          by_cases hemp : (pruneEnts cs).isEmpty = true
          · have hcs : pruneEnts cs = [] := by simpa using hemp
            have h0 : entsNonDir cs = [] := by
              rw [← pruneEnts_nonDir, hcs]
              rfl
            simp [remove_empty_dirs, hemp, optNonDir, entNonDir, h0]
          · have hne : (pruneEnts cs).isEmpty = false := by
              simpa using hemp
            simp [remove_empty_dirs, hne, optNonDir, entNonDir, pruneEnts_nonDir]

theorem pasteLoop_clean (maxRetry : Nat) (t : FileOpPaste) (ns : List Nat)
    (h : ∀ n ∈ ns, n ≠ 0) :
    pasteLoop maxRetry t (ns.map ChunkRes.ok ++ [ChunkRes.ok 0]) =
      (ns.map (fun n => TaskProg.Adv t.id 0 n) ++ [TaskProg.Adv t.id 1 0],
       PasteOut.done) := by
  induction ns with
  | nil => rfl
  | cons n ns ih =>
      have hn : n ≠ 0 := h n (List.mem_cons_self n ns)
      cases n with
      | zero => exact absurd rfl hn
      | succ m =>
          simp only [List.map_cons, List.cons_append, pasteLoop, List.append_eq]
          rw [ih (fun x hx => h x (List.mem_cons_of_mem _ hx))]

theorem workPaste_clean (maxRetry : Nat) (t : FileOpPaste) (rm : Option IoErr)
    (hrm : rm = none ∨ ∃ er, rm = some er ∧ er.kind = ErrKind.notFound)
    (ns : List Nat) (h : ∀ n ∈ ns, n ≠ 0) :
    workPaste maxRetry t rm (ns.map ChunkRes.ok ++ [ChunkRes.ok 0]) =
      (ns.map (fun n => TaskProg.Adv t.id 0 n) ++ [TaskProg.Adv t.id 1 0],
       PasteOut.done) := by
  rcases hrm with h0 | ⟨er, h0, hk⟩
  · subst h0
    simpa [workPaste] using pasteLoop_clean maxRetry t ns h
  · subst h0
    simp only [workPaste, hk]
    simpa using pasteLoop_clean maxRetry t ns h

theorem advSum_clean (id : Nat) (ns : List Nat) :
    advSum (ns.map (fun n => TaskProg.Adv id 0 n) ++ [TaskProg.Adv id 1 0]) =
      ns.sum := by
  induction ns with
  | nil => simp [advSum]
  | cons n ns ih => simp [advSum, ih]

theorem newSum_clean (id : Nat) (ns : List Nat) :
    newSum (ns.map (fun n => TaskProg.Adv id 0 n) ++ [TaskProg.Adv id 1 0]) = 0 := by
  induction ns with
  | nil => simp [newSum]
  | cons n ns ih => simpa [newSum] using ih

theorem tid_clean (id : Nat) (ns : List Nat) :
    ∀ x ∈ ns.map (fun n => TaskProg.Adv id 0 n) ++ [TaskProg.Adv id 1 0],
      x.tid = id := by
  induction ns with
  | nil =>
      intro x hx
      simp only [List.map_nil, List.nil_append, List.mem_singleton] at hx
      subst hx
      rfl
  | cons n ns ih =>
      intro x hx
      simp only [List.map_cons, List.cons_append, List.mem_cons] at hx
      rcases hx with h | h
      · subst h; rfl
      · exact ih x (by simpa using h)

theorem linkSym_done (t : FileOpLink) (len : Nat) (sl : Option IoErr)
    (hd : (linkSym t len sl).2 = LinkOut.done) :
    (linkSym t len sl).1 = [TaskProg.Adv t.id 1 len] := by
  cases sl with
  | none => rfl
  | some e => exact LinkOut.noConfusion hd

theorem linkCreate_done (t : FileOpLink) (len : Nat) (sl rm : Option IoErr)
    (hd : (linkCreate t len sl rm).2 = LinkOut.done) :
    (linkCreate t len sl rm).1 = [TaskProg.Adv t.id 1 len] := by
  cases rm with
  | none => exact linkSym_done t len sl hd
  | some e =>
      simp only [linkCreate] at hd ⊢
      by_cases hk : e.kind ≠ ErrKind.notFound
      · rw [if_pos hk] at hd
        exact LinkOut.noConfusion hd
      · rw [if_neg hk] at hd ⊢
        exact linkSym_done t len sl hd

theorem workLinkRel_done (t : FileOpLink) (s : LinkScript) (len : Nat)
    (r : Except IoErr Path) (hd : (workLinkRel t s len r).2 = LinkOut.done) :
    (workLinkRel t s len r).1 = [TaskProg.Adv t.id 1 len] := by
  cases r with
  | error e => exact LinkOut.noConfusion hd
  | ok p => exact linkCreate_done t len s.symlinkRes s.removeRes hd

theorem workLinkSrc_done (t : FileOpLink) (s : LinkScript) (len : Nat)
    (r : LinkSrcRes) (hd : (workLinkSrc t s len r).2 = LinkOut.done) :
    (workLinkSrc t s len r).1 = [TaskProg.Adv t.id 1 len] ∨
      (workLinkSrc t s len r).1 =
        [TaskProg.Log t.id linkPartialMsg, TaskProg.Adv t.id 1 len] := by
  cases r with
  | earlyDone => exact Or.inr rfl
  | fatalErr e => exact LinkOut.noConfusion hd
  | proceed src0 => exact Or.inl (workLinkRel_done t s len _ hd)

theorem workLink_done_events (l : FileOpLink) (s : LinkScript) (m : Metadata)
    (hm : l.meta = some m) (hd : (workLink l s).2 = LinkOut.done) :
    (workLink l s).1 = [TaskProg.Adv l.id 1 m.len] ∨
      (workLink l s).1 =
        [TaskProg.Log l.id linkPartialMsg, TaskProg.Adv l.id 1 m.len] := by
  unfold workLink at hd ⊢
  rw [hm] at hd ⊢
  exact workLinkSrc_done l s m.len _ hd

theorem workLink_done_sums (l : FileOpLink) (s : LinkScript) (m : Metadata)
    (hm : l.meta = some m) (hd : (workLink l s).2 = LinkOut.done) :
    advSum (workLink l s).1 = m.len ∧ newSum (workLink l s).1 = 0 ∧
      ∀ x ∈ (workLink l s).1, x.tid = l.id := by
  rcases workLink_done_events l s m hm hd with h | h
  · rw [h]
    refine ⟨by simp [advSum], by simp [newSum], ?_⟩
    intro x hx
    simp only [List.mem_singleton] at hx
    subst hx
    rfl
  · rw [h]
    refine ⟨by simp [advSum], by simp [newSum], ?_⟩
    intro x hx
    simp only [List.mem_cons, List.mem_singleton] at hx
    rcases hx with h' | h' | h'
    · subst h'; rfl
    · subst h'; rfl
    · cases h'

theorem runPasteOp_single_clean (maxRetry : Nat) (p : FileOpPaste)
    (a : PasteScript)
    (hrm : a.removeRes = none ∨
      ∃ er, a.removeRes = some er ∧ er.kind = ErrKind.notFound)
    (ns : List Nat) (hns : ∀ n ∈ ns, n ≠ 0)
    (hch : a.chunks = ns.map ChunkRes.ok ++ [ChunkRes.ok 0]) :
    runPasteOp maxRetry p [a] =
      (ns.map (fun n => TaskProg.Adv p.id 0 n) ++ [TaskProg.Adv p.id 1 0],
       p, 1, RunEnd.completed) := by
  have hw := workPaste_clean maxRetry p a.removeRes hrm ns hns
  rw [← hch] at hw
  simp only [runPasteOp, hw]

theorem pasteLoop_tid (maxRetry : Nat) (t : FileOpPaste) (chunks : List ChunkRes) :
    ∀ x ∈ (pasteLoop maxRetry t chunks).1, x.tid = t.id := by
  induction chunks with
  | nil =>
      intro x hx
      simp only [pasteLoop, List.mem_singleton] at hx
      subst hx
      rfl
  | cons c rest ih =>
      intro x hx
      cases c with
      | ok n =>
          cases n with
          | zero =>
              simp only [pasteLoop, List.mem_singleton] at hx
              subst hx
              rfl
          | succ m =>
              simp only [pasteLoop, List.mem_cons] at hx
              rcases hx with h | h
              · subst h; rfl
              · exact ih x h
      | err e =>
          simp only [pasteLoop] at hx
          by_cases h1 : e.kind = ErrKind.notFound
          · rw [if_pos h1] at hx
            simp only [List.mem_singleton] at hx
            subst hx
            rfl
          · rw [if_neg h1] at hx
            by_cases h2 : t.retry < maxRetry ∧ (e.os = some 1 ∨ e.os = some 93)
            · rw [if_pos h2] at hx
              simp only [List.mem_singleton] at hx
              subst hx
              rfl
            · rw [if_neg h2] at hx
              simp at hx

theorem workPaste_tid (maxRetry : Nat) (t : FileOpPaste) (rm : Option IoErr)
    (chunks : List ChunkRes) :
    ∀ x ∈ (workPaste maxRetry t rm chunks).1, x.tid = t.id := by
  cases rm with
  | none => exact pasteLoop_tid maxRetry t chunks
  | some e =>
      simp only [workPaste]
      by_cases hk : e.kind ≠ ErrKind.notFound
      · rw [if_pos hk]
        intro x hx
        simp at hx
      · rw [if_neg hk]
        exact pasteLoop_tid maxRetry t chunks

theorem pasteLoop_reenq_id (maxRetry : Nat) (t : FileOpPaste)
    (chunks : List ChunkRes) (t' : FileOpPaste) (p : Prio)
    (h : (pasteLoop maxRetry t chunks).2 = PasteOut.reenq t' p) : t'.id = t.id := by
  induction chunks with
  | nil => exact PasteOut.noConfusion h
  | cons c rest ih =>
      cases c with
      | ok n =>
          cases n with
          | zero => exact PasteOut.noConfusion h
          | succ m =>
              simp only [pasteLoop] at h
              exact ih h
      | err e =>
          simp only [pasteLoop] at h
          by_cases h1 : e.kind = ErrKind.notFound
          · rw [if_pos h1] at h
            exact PasteOut.noConfusion h
          · rw [if_neg h1] at h
            by_cases h2 : t.retry < maxRetry ∧ (e.os = some 1 ∨ e.os = some 93)
            · rw [if_pos h2] at h
              injection h with h4 h5
              rw [← h4]
            · rw [if_neg h2] at h
              exact PasteOut.noConfusion h

theorem workPaste_reenq_id (maxRetry : Nat) (t : FileOpPaste) (rm : Option IoErr)
    (chunks : List ChunkRes) (t' : FileOpPaste) (p : Prio)
    (h : (workPaste maxRetry t rm chunks).2 = PasteOut.reenq t' p) : t'.id = t.id := by
  cases rm with
  | none => exact pasteLoop_reenq_id maxRetry t chunks t' p h
  | some e =>
      simp only [workPaste] at h
      by_cases hk : e.kind ≠ ErrKind.notFound
      · rw [if_pos hk] at h
        exact PasteOut.noConfusion h
      · rw [if_neg hk] at h
        exact pasteLoop_reenq_id maxRetry t chunks t' p h

theorem runPasteOp_tid (maxRetry : Nat) (scripts : List PasteScript) :
    ∀ t, ∀ x ∈ (runPasteOp maxRetry t scripts).1, x.tid = t.id := by
  induction scripts with
  | nil =>
      intro t x hx
      simp [runPasteOp] at hx
  | cons a rest ih =>
      intro t x hx
      rcases hw : workPaste maxRetry t a.removeRes a.chunks with ⟨ev, out⟩
      cases out with
      | done =>
          have hrun : runPasteOp maxRetry t (a :: rest) =
              (ev, t, 1, RunEnd.completed) := by
            rw [runPasteOp, hw]
          rw [hrun] at hx
          have hx' : x ∈ (workPaste maxRetry t a.removeRes a.chunks).1 := by
            rw [hw]
            exact hx
          exact workPaste_tid maxRetry t a.removeRes a.chunks x hx'
      | fatal e =>
          have hrun : runPasteOp maxRetry t (a :: rest) =
              (ev, t, 1, RunEnd.failed e) := by
            rw [runPasteOp, hw]
          rw [hrun] at hx
          have hx' : x ∈ (workPaste maxRetry t a.removeRes a.chunks).1 := by
            rw [hw]
            exact hx
          exact workPaste_tid maxRetry t a.removeRes a.chunks x hx'
      | reenq t' p =>
          have hrun : runPasteOp maxRetry t (a :: rest) =
              (ev ++ (runPasteOp maxRetry t' rest).1,
               (runPasteOp maxRetry t' rest).2.1,
               (runPasteOp maxRetry t' rest).2.2.1 + 1,
               (runPasteOp maxRetry t' rest).2.2.2) := by
            rw [runPasteOp, hw]
          rw [hrun] at hx
          simp only [List.mem_append] at hx
          rcases hx with h | h
          · have hx' : x ∈ (workPaste maxRetry t a.removeRes a.chunks).1 := by
              rw [hw]
              exact h
            exact workPaste_tid maxRetry t a.removeRes a.chunks x hx'
          · have hid : t'.id = t.id :=
              workPaste_reenq_id maxRetry t a.removeRes a.chunks t' p (by rw [hw])
            rw [← hid]
            exact ih t' x h

theorem runEnqs_sums (maxRetry : Nat) (t : FileOpPaste) (q : List Enq)
    (scripts : List OpScript) (hq : ∀ e ∈ q, EnqProp t e)
    (hf : List.Forall₂ CleanFor q scripts) :
    advSum (runEnqs maxRetry q scripts) = enqLenSum q ∧
    newSum (runEnqs maxRetry q scripts) = 0 ∧
    ∀ x ∈ runEnqs maxRetry q scripts, x.tid = t.id := by
  revert hq
  induction hf with
  | nil =>
      intro hq
      refine ⟨rfl, rfl, ?_⟩
      intro x hx
      cases hx
  | @cons e s q' scripts' hcf hrest ih =>
      intro hq
      have hq' : ∀ e' ∈ q', EnqProp t e' := fun e' he' => hq e' (List.mem_cons_of_mem _ he')
      have he := hq e (List.mem_cons_self e q')
      obtain ⟨hadv, hnew, htid⟩ := ih hq'
      have hrun : runEnqs maxRetry (e :: q') (s :: scripts') =
          execEnq maxRetry e s ++ runEnqs maxRetry q' scripts' := rfl
      rcases he with ⟨p, hop, hprio, hid, hcut, hfol, hret⟩ | ⟨l, hop, hprio, hid, hm, hres, hrel, hdel⟩
      · cases s with
        | linkS ls =>
            exfalso
            have hcf' : CleanFor e (OpScript.linkS ls) := hcf
            unfold CleanFor at hcf'
            rw [hop] at hcf'
            exact hcf'
        | pasteS attempts =>
            have hcf' : CleanFor e (OpScript.pasteS attempts) := hcf
            unfold CleanFor at hcf'
            rw [hop] at hcf'
            obtain ⟨a, ns, ha, hrm, hch, hns, hsum⟩ := hcf'
            subst ha
            have hex : execEnq maxRetry e (OpScript.pasteS [a]) =
                (runPasteOp maxRetry p [a]).1 := by
              unfold execEnq
              rw [hop]
            have hsingle := runPasteOp_single_clean maxRetry p a hrm ns hns hch
            rw [hsingle] at hex
            rw [hrun, hex]
            refine ⟨?_, ?_, ?_⟩
            · rw [advSum_append, hadv, advSum_clean, hsum]
              rfl
            · rw [newSum_append, hnew, newSum_clean]
            · intro x hx
              simp only [List.mem_append] at hx
              rcases hx with h | h
              · rw [← hid]
                exact tid_clean p.id ns x (List.mem_append.mpr h)
              · exact htid x h
      · cases s with
        | pasteS attempts =>
            exfalso
            have hcf' : CleanFor e (OpScript.pasteS attempts) := hcf
            unfold CleanFor at hcf'
            rw [hop] at hcf'
            exact hcf'
        | linkS ls =>
            have hcf' : CleanFor e (OpScript.linkS ls) := hcf
            unfold CleanFor at hcf'
            rw [hop] at hcf'
            have hex : execEnq maxRetry e (OpScript.linkS ls) =
                (workLink l ls).1 := by
              unfold execEnq
              rw [hop]
            obtain ⟨hladv, hlnew, hltid⟩ :=
              workLink_done_sums l ls ⟨FileKind.symlink, e.len⟩ hm hcf'
            rw [hrun, hex]
            refine ⟨?_, ?_, ?_⟩
            · rw [advSum_append, hadv, hladv]
              rfl
            · rw [newSum_append, hnew, hlnew]
            · intro x hx
              simp only [List.mem_append] at hx
              rcases hx with h | h
              · rw [← hid]
                exact hltid x h
              · exact htid x h

theorem okPair_inj {ev a : List TaskProg} {q b : List Enq}
    (h : (Except.ok (a, b) : Except IoErr (List TaskProg × List Enq)) =
      Except.ok (ev, q)) : a = ev ∧ b = q := by
  injection h with hp
  injection hp with h1 h2
  exact ⟨h1, h2⟩

theorem pastePlanMain_props (t : FileOpPaste) (src : Ent) (ev : List TaskProg)
    (q : List Enq) (h : pastePlanMain t src = Except.ok (ev, q)) :
    newSum ev = enqLenSum q ∧ advSum ev = 0 ∧ (∀ x ∈ ev, x.tid = t.id) ∧
    ∀ e ∈ q, EnqProp t e := by
  cases src with
  | badMeta n => exact Except.noConfusion h
  | file n len =>
      obtain ⟨hev, hq⟩ := okPair_inj h
      subst hev
      subst hq
      refine ⟨by simp [newSum, enqLenSum], by simp [advSum], ?_, ?_⟩
      · intro x hx
        simp only [List.mem_cons, List.mem_singleton] at hx
        rcases hx with h1 | h1 | h1
        · subst h1; rfl
        · subst h1; rfl
        · cases h1
      · intro e he
        simp only [List.mem_singleton] at he
        subst he
        exact Or.inl ⟨t, rfl, rfl, rfl, rfl, rfl, rfl⟩
  | symlink n len =>
      obtain ⟨hev, hq⟩ := okPair_inj h
      subst hev
      subst hq
      refine ⟨by simp [newSum, enqLenSum], by simp [advSum], ?_, ?_⟩
      · intro x hx
        simp only [List.mem_cons, List.mem_singleton] at hx
        rcases hx with h1 | h1 | h1
        · subst h1; rfl
        · subst h1; rfl
        · cases h1
      · intro e he
        simp only [List.mem_singleton] at he
        subst he
        exact Or.inr ⟨t.to_link ⟨FileKind.symlink, len⟩,
          rfl, rfl, rfl, rfl, rfl, rfl, rfl⟩
  | dir n mk lk cs =>
      obtain ⟨hev, hq⟩ := okPair_inj h
      subst hev
      subst hq
      refine ⟨?_, ?_, ?_, ?_⟩
      · rw [newSum_append, pasteWalk_newSum]
        simp [newSum]
      · rw [advSum_append, pasteWalk_advSum]
        simp [advSum]
      · intro x hx
        simp only [List.mem_append, List.mem_singleton] at hx
        rcases hx with h1 | h1
        · exact pasteWalk_tid t t.to_ t.from_.length _ x h1
        · subst h1; rfl
      · intro e he
        exact pasteWalk_enqProp t t.to_ t.from_.length _ e he

theorem pastePlan_props (t : FileOpPaste) (rn : Option IoErr) (src : Ent)
    (ev : List TaskProg) (q : List Enq)
    (h : pastePlan t rn src = Except.ok (ev, q)) :
    newSum ev = enqLenSum q ∧ advSum ev = 0 ∧ (∀ x ∈ ev, x.tid = t.id) ∧
    ∀ e ∈ q, EnqProp t e := by
  unfold pastePlan at h
  by_cases hc : t.cut = true
  · rw [if_pos hc] at h
    cases rn with
    | none =>
        obtain ⟨hev, hq⟩ := okPair_inj h
        subst hev
        subst hq
        refine ⟨rfl, rfl, ?_, ?_⟩
        · intro x hx
          simp only [List.mem_singleton] at hx
          subst hx
          rfl
        · intro e he
          cases he
    | some e =>
        have h2 : (if e.kind = ErrKind.notFound then
            (Except.ok ([TaskProg.Succ t.id], []) :
              Except IoErr (List TaskProg × List Enq))
          else pastePlanMain t src) = Except.ok (ev, q) := h
        by_cases hk : e.kind = ErrKind.notFound
        · rw [if_pos hk] at h2
          obtain ⟨hev, hq⟩ := okPair_inj h2
          subst hev
          subst hq
          refine ⟨rfl, rfl, ?_, ?_⟩
          · intro x hx
            simp only [List.mem_singleton] at hx
            subst hx
            rfl
          · intro e' he
            cases he
        · rw [if_neg hk] at h2
          exact pastePlanMain_props t src ev q h2
  · rw [if_neg hc] at h
    exact pastePlanMain_props t src ev q h

theorem deletePlan_shape (t : FileOpDelete) (src : Ent) (ev : List TaskProg)
    (q : List Enq) (h : deletePlan t src = Except.ok (ev, q)) :
    ∀ e ∈ q, ∃ d', e.op = FileOp.delete d' ∧ e.prio = NORMAL ∧
      d'.id = t.id ∧ d'.length = e.len := by
  cases src with
  | badMeta n => exact Except.noConfusion h
  | file n len =>
      obtain ⟨hev, hq⟩ := okPair_inj h
      subst hq
      intro e he
      simp only [List.mem_singleton] at he
      subst he
      exact ⟨{ t with length := len }, rfl, rfl, rfl, rfl⟩
  | symlink n len =>
      obtain ⟨hev, hq⟩ := okPair_inj h
      subst hq
      intro e he
      simp only [List.mem_singleton] at he
      subst he
      exact ⟨{ t with length := len }, rfl, rfl, rfl, rfl⟩
  | dir n mk lk cs =>
      obtain ⟨hev, hq⟩ := okPair_inj h
      subst hq
      intro e he
      exact deleteWalk_shape t _ e he

theorem linkPlan_shape (t : FileOpLink) (mres : Except IoErr Metadata)
    (ev : List TaskProg) (q : List Enq) (h : linkPlan t mres = Except.ok (ev, q)) :
    ∀ e ∈ q, ∃ l, e.op = FileOp.link l ∧ e.prio = NORMAL ∧
      l.meta.isSome = true := by
  unfold linkPlan at h
  cases hm : t.meta with
  | some m =>
      rw [hm] at h
      simp only [linkPlanWith] at h
      obtain ⟨hev, hq⟩ := okPair_inj h
      subst hq
      intro e he
      simp only [List.mem_singleton] at he
      subst he
      exact ⟨t, rfl, rfl, by rw [hm]; rfl⟩
  | none =>
      rw [hm] at h
      simp only [linkPlanWith] at h
      cases mres with
      | error e => exact Except.noConfusion h
      | ok m =>
          obtain ⟨hev, hq⟩ := okPair_inj h
          subst hq
          intro e he
          simp only [List.mem_singleton] at he
          subst he
          exact ⟨{ t with meta := some m }, rfl, rfl, rfl⟩

/-- OS error 1 (operation not permitted), one of the two transient codes. -/
def permErr : IoErr := ⟨ErrKind.other, some 1⟩

/-- A dispatch whose copy immediately fails with OS error 1. -/
def permScript : PasteScript := ⟨none, [ChunkRes.err permErr]⟩

/-- OS error 93 (attribute not found), the other transient code. -/
def attrErr : IoErr := ⟨ErrKind.other, some 93⟩

/-- A dispatch whose copy immediately fails with the given error. -/
def bizarreScript (e : IoErr) : PasteScript := ⟨none, [ChunkRes.err e]⟩

theorem workPaste_bizarre_fatal (maxRetry : Nat) (t : FileOpPaste) (e : IoErr)
    (hk : e.kind ≠ ErrKind.notFound) (hge : ¬ t.retry < maxRetry) :
    workPaste maxRetry t (bizarreScript e).removeRes (bizarreScript e).chunks =
      ([], PasteOut.fatal e) := by
  show pasteLoop maxRetry t [ChunkRes.err e] = ([], PasteOut.fatal e)
  simp only [pasteLoop]
  rw [if_neg hk, if_neg ?hc]
  case hc =>
    intro hcon
    exact hge hcon.1

theorem workPaste_bizarre_retry (maxRetry : Nat) (t : FileOpPaste) (e : IoErr)
    (hk : e.kind ≠ ErrKind.notFound) (hos : e.os = some 1 ∨ e.os = some 93)
    (hlt : t.retry < maxRetry) :
    workPaste maxRetry t (bizarreScript e).removeRes (bizarreScript e).chunks =
      ([TaskProg.Log t.id pasteRetryMsg],
       PasteOut.reenq { t with retry := t.retry + 1 } LOW) := by
  show pasteLoop maxRetry t [ChunkRes.err e] = _
  simp only [pasteLoop]
  rw [if_neg hk, if_pos ⟨hlt, hos⟩]

theorem runPasteOp_bizarre_chain (t : FileOpPaste) (e : IoErr)
    (hk : e.kind ≠ ErrKind.notFound) (hos : e.os = some 1 ∨ e.os = some 93) :
    ∀ d r, runPasteOp (r + d) { t with retry := r }
        (List.replicate (d + 1) (bizarreScript e)) =
      (List.replicate d (TaskProg.Log t.id pasteRetryMsg),
       { t with retry := r + d }, d + 1,
       RunEnd.failed e) := by
  intro d
  induction d with
  | zero =>
      intro r
      simp only [Nat.add_zero, List.replicate_one, List.replicate]
      have hwork := workPaste_bizarre_fatal r { t with retry := r } e hk (Nat.lt_irrefl r)
      rw [runPasteOp, hwork]
  | succ d ih =>
      intro r
      have hr : r + (d + 1) = (r + 1) + d := by omega
      rw [hr]
      have hlt : ({ t with retry := r } : FileOpPaste).retry < (r + 1) + d := by
        show r < (r + 1) + d
        omega
      have hwork := workPaste_bizarre_retry ((r + 1) + d) { t with retry := r } e hk hos hlt
      rw [List.replicate_succ, runPasteOp, hwork]
      show (TaskProg.Log t.id pasteRetryMsg ::
          (runPasteOp ((r + 1) + d) { t with retry := r + 1 }
            (List.replicate (d + 1) (bizarreScript e))).1,
        (runPasteOp ((r + 1) + d) { t with retry := r + 1 }
          (List.replicate (d + 1) (bizarreScript e))).2.1,
        (runPasteOp ((r + 1) + d) { t with retry := r + 1 }
          (List.replicate (d + 1) (bizarreScript e))).2.2.1 + 1,
        (runPasteOp ((r + 1) + d) { t with retry := r + 1 }
          (List.replicate (d + 1) (bizarreScript e))).2.2.2) = _
      rw [ih (r + 1)]
      rw [List.replicate_succ]

theorem pasteLoop_reenq_prio (maxRetry : Nat) (t : FileOpPaste)
    (chunks : List ChunkRes) (t' : FileOpPaste) (p : Prio)
    (h : (pasteLoop maxRetry t chunks).2 = PasteOut.reenq t' p) : p = LOW := by
  induction chunks with
  | nil => exact PasteOut.noConfusion h
  | cons c rest ih =>
      cases c with
      | ok n =>
          cases n with
          | zero => exact PasteOut.noConfusion h
          | succ m =>
              simp only [pasteLoop] at h
              exact ih h
      | err e =>
          simp only [pasteLoop] at h
          by_cases h1 : e.kind = ErrKind.notFound
          · rw [if_pos h1] at h
            exact PasteOut.noConfusion h
          · rw [if_neg h1] at h
            by_cases h2 : t.retry < maxRetry ∧ (e.os = some 1 ∨ e.os = some 93)
            · rw [if_pos h2] at h
              injection h with h4 h5
              exact h5.symm
            · rw [if_neg h2] at h
              exact PasteOut.noConfusion h

theorem workPaste_reenq_prio (maxRetry : Nat) (t : FileOpPaste)
    (rm : Option IoErr) (chunks : List ChunkRes) (t' : FileOpPaste) (p : Prio)
    (h : (workPaste maxRetry t rm chunks).2 = PasteOut.reenq t' p) : p = LOW := by
  cases rm with
  | none => exact pasteLoop_reenq_prio maxRetry t chunks t' p h
  | some e =>
      simp only [workPaste] at h
      by_cases hk : e.kind ≠ ErrKind.notFound
      · rw [if_pos hk] at h
        exact PasteOut.noConfusion h
      · rw [if_neg hk] at h
        exact pasteLoop_reenq_prio maxRetry t chunks t' p h

/-- Name constants for the concrete inputs of witnesses and
counterexamples. -/
def nmA : String := "a"

/-- Name constant. -/
def nmB : String := "b"

/-- Name constant. -/
def nmD : String := "d"

/-- Name constant. -/
def nmF : String := "f"

/-- Name constant. -/
def nmX : String := "x"

/-- A concrete paste request without cut. -/
def tC1 : FileOpPaste := ⟨0, [nmA], [nmB], false, false, 0⟩

/-- A concrete paste request with cut. -/
def tC4 : FileOpPaste := ⟨0, [nmA], [nmB], true, false, 0⟩

/-- A concrete delete request. -/
def tDel : FileOpDelete := ⟨0, [nmA], 0⟩

/-- A concrete link request without stored metadata. -/
def tLnk : FileOpLink := ⟨1, [nmA], [nmB], none, false, false, false⟩

/-- A directory whose first entry has a failing metadata read and whose
second entry is a 7-byte file. -/
def srcC7 : Ent := Ent.dir nmD true true [Ent.badMeta nmX, Ent.file nmF 7]

/-- A clean dispatch: 4 and 6 byte chunks and the zero terminator. -/
def cleanA : PasteScript := ⟨none, [ChunkRes.ok 4, ChunkRes.ok 6, ChunkRes.ok 0]⟩

/-- A dispatch whose source vanishes after a 5-byte chunk. -/
def vanishA : PasteScript := ⟨none, [ChunkRes.ok 5, ChunkRes.err ⟨ErrKind.notFound, some 2⟩]⟩

/-- C1 (amended): for every paste task id, in a run where every enqueued
leaf operation executes cleanly (each PasteChunk completes in one attempt
delivering exactly the bytes recorded at enqueue time, each LinkCreate
terminates normally), the sum of bytes_delta over all Adv events equals
the sum of total_bytes over all New events, and every event of the run
carries that task id. -/
theorem C1_paste_byte_conservation (maxRetry : Nat) (t : FileOpPaste)
    (rn : Option IoErr) (src : Ent) (ev : List TaskProg) (q : List Enq)
    (scripts : List OpScript) (h : pastePlan t rn src = Except.ok (ev, q))
    (hf : List.Forall₂ CleanFor q scripts) :
    newSum (ev ++ runEnqs maxRetry q scripts) =
      advSum (ev ++ runEnqs maxRetry q scripts) ∧
    ∀ x ∈ ev ++ runEnqs maxRetry q scripts, x.tid = t.id := by
  obtain ⟨hnew, hadv, htid, hprop⟩ := pastePlan_props t rn src ev q h
  obtain ⟨hradv, hrnew, hrtid⟩ := runEnqs_sums maxRetry t q scripts hprop hf
  constructor
  · rw [newSum_append, advSum_append, hnew, hadv, hrnew, hradv]
    omega
  · intro x hx
    rcases List.mem_append.mp hx with h1 | h1
    · exact htid x h1
    · exact hrtid x h1

/-- C1 witness: a clean single-file run, applied at a 10-byte file copied
as one 4-byte and one 6-byte chunk. -/
theorem C1_witness :
    newSum ([TaskProg.New 0 10, TaskProg.Succ 0] ++
        runEnqs 3 [⟨FileOp.paste tC1, LOW, 10⟩] [OpScript.pasteS [cleanA]]) =
      advSum ([TaskProg.New 0 10, TaskProg.Succ 0] ++
        runEnqs 3 [⟨FileOp.paste tC1, LOW, 10⟩] [OpScript.pasteS [cleanA]]) ∧
    ∀ x ∈ [TaskProg.New 0 10, TaskProg.Succ 0] ++
        runEnqs 3 [⟨FileOp.paste tC1, LOW, 10⟩] [OpScript.pasteS [cleanA]],
      x.tid = 0 :=
  C1_paste_byte_conservation 3 tC1 none (Ent.file nmA 10)
    [TaskProg.New 0 10, TaskProg.Succ 0] [⟨FileOp.paste tC1, LOW, 10⟩]
    [OpScript.pasteS [cleanA]] rfl
    (List.Forall₂.cons
      ⟨cleanA, [4, 6], rfl, Or.inl rfl, rfl, by decide, by decide⟩
      List.Forall₂.nil)

/-- C1 counterexample: pasting one 10-byte file whose source vanishes
after 5 bytes; the run terminates normally (tolerated race), the New
events total 10 but the Adv events total only 5, refuting the claim for
vanishing-source runs. -/
theorem C1_counterexample :
    pastePlan tC1 none (Ent.file nmA 10) =
      Except.ok ([TaskProg.New 0 10, TaskProg.Succ 0],
        [⟨FileOp.paste tC1, LOW, 10⟩]) ∧
    runEnqs 3 [⟨FileOp.paste tC1, LOW, 10⟩] [OpScript.pasteS [vanishA]] =
      [TaskProg.Adv 0 0 5, TaskProg.Adv 0 1 0] ∧
    (runPasteOp 3 tC1 [vanishA]).2.2.2 = RunEnd.completed ∧
    newSum ([TaskProg.New 0 10, TaskProg.Succ 0] ++
      [TaskProg.Adv 0 0 5, TaskProg.Adv 0 1 0]) = 10 ∧
    advSum ([TaskProg.New 0 10, TaskProg.Succ 0] ++
      [TaskProg.Adv 0 0 5, TaskProg.Adv 0 1 0]) = 5 := by
  refine ⟨rfl, rfl, rfl, rfl, rfl⟩

/-- C2 (amended): a DeleteEntry dispatch is fatal (Fail event plus the
propagated error) exactly when the removal fails with an error other than
not-found AND stale link metadata is still observable at the target;
otherwise it emits Adv(id, 1, length) and succeeds. -/
theorem C2_delete_fatal_characterisation (t : FileOpDelete)
    (rm : Option IoErr) (obs : Bool) :
    (∀ e, rm = some e → e.kind ≠ ErrKind.notFound → obs = true →
      workDelete t rm obs = ([TaskProg.Fail t.id deleteFailMsg], some e)) ∧
    ((rm = none ∨ ∃ e, rm = some e ∧ (e.kind = ErrKind.notFound ∨ obs = false)) →
      workDelete t rm obs = ([TaskProg.Adv t.id 1 t.length], none)) := by
  constructor
  · intro e h0 hk hobs
    subst h0
    show (if e.kind ≠ ErrKind.notFound ∧ obs = true then
        ([TaskProg.Fail t.id deleteFailMsg], some e)
      else ([TaskProg.Adv t.id 1 t.length], none)) =
      ([TaskProg.Fail t.id deleteFailMsg], some e)
    rw [if_pos ⟨hk, hobs⟩]
  · intro hcase
    rcases hcase with h0 | ⟨e, h0, hor⟩
    · subst h0
      rfl
    · subst h0
      show (if e.kind ≠ ErrKind.notFound ∧ obs = true then
          ([TaskProg.Fail t.id deleteFailMsg], some e)
        else ([TaskProg.Adv t.id 1 t.length], none)) =
        ([TaskProg.Adv t.id 1 t.length], none)
      rw [if_neg ?hc]
      case hc =>
        intro hcon
        rcases hor with h | h
        · exact hcon.1 h
        · rw [h] at hcon
          exact Bool.noConfusion hcon.2

/-- C2 witness: a permission error with the entry still present is fatal;
a not-found error is tolerated. -/
theorem C2_witness :
    workDelete ⟨1, [nmA], 4⟩ (some ⟨ErrKind.other, none⟩) true =
      ([TaskProg.Fail 1 deleteFailMsg], some ⟨ErrKind.other, none⟩) ∧
    workDelete ⟨1, [nmA], 4⟩ (some ⟨ErrKind.notFound, some 2⟩) true =
      ([TaskProg.Adv 1 1 4], none) :=
  ⟨(C2_delete_fatal_characterisation ⟨1, [nmA], 4⟩ (some ⟨ErrKind.other, none⟩)
        true).1 ⟨ErrKind.other, none⟩ rfl (by decide) rfl,
   (C2_delete_fatal_characterisation ⟨1, [nmA], 4⟩ (some ⟨ErrKind.notFound, some 2⟩)
        true).2 (Or.inr ⟨⟨ErrKind.notFound, some 2⟩, rfl, Or.inl rfl⟩)⟩

/-- C2 counterexample: a removal failing with a non-not-found error while
no stale link metadata is observable. The claim calls this fatal; the code
emits Adv and succeeds, because its condition conjoins the two tests. -/
theorem C2_counterexample :
    deleteFatalClaim ⟨ErrKind.other, some 13⟩ false ∧
    workDelete ⟨0, [nmA], 5⟩ (some ⟨ErrKind.other, some 13⟩) false =
      ([TaskProg.Adv 0 1 5], none) := by
  constructor
  · exact Or.inl (by decide)
  · rfl

/-- C3 (amended): the priority tier of every enqueued leaf operation is a
pure function of its variant: PasteChunk and TrashEntry at the low tier,
LinkCreate and DeleteEntry at the elevated tier, and a PasteChunk
re-enqueued after a transient copy failure again at the LOW tier. -/
theorem C3_tier_pure_function :
    (∀ t rn src ev q, pastePlan t rn src = Except.ok (ev, q) →
      ∀ e ∈ q, e.prio = tierOf e.op) ∧
    (∀ t src ev q, deletePlan t src = Except.ok (ev, q) →
      ∀ e ∈ q, e.prio = tierOf e.op) ∧
    (∀ t mres ev q, linkPlan t mres = Except.ok (ev, q) →
      ∀ e ∈ q, e.prio = tierOf e.op) ∧
    (∀ t size, ∀ e ∈ (trashPlan t size).2, e.prio = tierOf e.op) ∧
    (∀ maxRetry t rm chunks t' p,
      (workPaste maxRetry t rm chunks).2 = PasteOut.reenq t' p → p = LOW) := by
  refine ⟨?_, ?_, ?_, ?_, ?_⟩
  · intro t rn src ev q h e he
    obtain ⟨-, -, -, hprop⟩ := pastePlan_props t rn src ev q h
    rcases hprop e he with ⟨p, hop, hprio, -, -, -, -⟩ | ⟨l, hop, hprio, -, -, -, -, -⟩
    · rw [hop, hprio]
      rfl
    · rw [hop, hprio]
      rfl
  · intro t src ev q h e he
    obtain ⟨d', hop, hprio, -, -⟩ := deletePlan_shape t src ev q h e he
    rw [hop, hprio]
    rfl
  · intro t mres ev q h e he
    obtain ⟨l, hop, hprio, -⟩ := linkPlan_shape t mres ev q h e he
    rw [hop, hprio]
    rfl
  · intro t size e he
    simp only [trashPlan, List.mem_singleton] at he
    subst he
    rfl
  · intro maxRetry t rm chunks t' p h
    exact workPaste_reenq_prio maxRetry t rm chunks t' p h

/-- C3 witness: a concrete DeleteEntry enqueue sits at its variant tier. -/
theorem C3_witness :
    (⟨FileOp.delete ⟨0, [nmA], 7⟩, NORMAL, 7⟩ : Enq).prio =
      tierOf (FileOp.delete ⟨0, [nmA], 7⟩) :=
  C3_tier_pure_function.2.1 tDel (Ent.file nmF 7)
    [TaskProg.New 0 7, TaskProg.Succ 0] [⟨FileOp.delete ⟨0, [nmA], 7⟩, NORMAL, 7⟩]
    rfl ⟨FileOp.delete ⟨0, [nmA], 7⟩, NORMAL, 7⟩ (List.mem_singleton.mpr rfl)

/-- C3 counterexample: a transient copy failure re-enqueues the PasteChunk
at LOW, not at the elevated tier the claim names. -/
theorem C3_counterexample :
    (workPaste 5 tC1 none [ChunkRes.err permErr]).2 =
      PasteOut.reenq ⟨0, [nmA], [nmB], false, false, 1⟩ LOW ∧
    LOW ≠ NORMAL := by
  exact ⟨rfl, by decide⟩

/-- C4 (amended): the paste planner attempts the atomic rename fast-path
exactly when cut is set, regardless of whether the source is a directory;
on rename success or a not-found error it emits a single Succ and enqueues
nothing, and without cut the rename outcome is never consulted. -/
theorem C4_rename_fastpath :
    (∀ t rn src, t.cut = true →
      (rn = none ∨ ∃ e, rn = some e ∧ e.kind = ErrKind.notFound) →
      pastePlan t rn src = Except.ok ([TaskProg.Succ t.id], [])) ∧
    (∀ t rn rn' src, t.cut = false → pastePlan t rn src = pastePlan t rn' src) := by
  constructor
  · intro t rn src hc hrn
    unfold pastePlan
    rw [if_pos hc]
    rcases hrn with h0 | ⟨e, h0, hk⟩
    · subst h0
      rfl
    · subst h0
      show (if e.kind = ErrKind.notFound then
          (Except.ok ([TaskProg.Succ t.id], []) :
            Except IoErr (List TaskProg × List Enq))
        else pastePlanMain t src) = Except.ok ([TaskProg.Succ t.id], [])
      rw [if_pos hk]
  · intro t rn rn' src hc
    unfold pastePlan
    rw [if_neg (by simp [hc]), if_neg (by simp [hc])]

/-- C4 witness: cut paste of a directory with a successful rename yields a
single Succ and no enqueues. -/
theorem C4_witness :
    pastePlan tC4 none (Ent.dir nmD true true [Ent.file nmF 3]) =
      Except.ok ([TaskProg.Succ 0], []) :=
  C4_rename_fastpath.1 tC4 none (Ent.dir nmD true true [Ent.file nmF 3])
    rfl (Or.inl rfl)

/-- C4 counterexample: with cut set and a directory source the code takes
the rename fast-path, while the claim version (rename only when the source
is not a directory) walks the tree instead; the two differ at this input. -/
theorem C4_counterexample :
    pastePlan tC4 none (Ent.dir nmD true true [Ent.file nmF 3]) =
      Except.ok ([TaskProg.Succ 0], []) ∧
    pastePlanClaimC4 tC4 none (Ent.dir nmD true true [Ent.file nmF 3]) =
      Except.ok ([TaskProg.New 0 3, TaskProg.Succ 0],
        [⟨FileOp.paste ⟨0, [nmA, nmF], [nmB, nmF], true, false, 0⟩, LOW, 3⟩]) ∧
    pastePlan tC4 none (Ent.dir nmD true true [Ent.file nmF 3]) ≠
      pastePlanClaimC4 tC4 none (Ent.dir nmD true true [Ent.file nmF 3]) := by
  have h1 : pastePlan tC4 none (Ent.dir nmD true true [Ent.file nmF 3]) =
      Except.ok ([TaskProg.Succ 0], []) := rfl
  have h2 : pastePlanClaimC4 tC4 none (Ent.dir nmD true true [Ent.file nmF 3]) =
      Except.ok ([TaskProg.New 0 3, TaskProg.Succ 0],
        [⟨FileOp.paste ⟨0, [nmA, nmF], [nmB, nmF], true, false, 0⟩, LOW, 3⟩]) := by
    simp [pastePlanClaimC4, isDirEnt, pastePlanMain, pasteWalk, pasteEnts, tC4,
      LOW, List.drop]
  refine ⟨h1, h2, ?_⟩
  rw [h1, h2]
  intro hcon
  exact absurd (okPair_inj hcon).1 (by decide)

/-- C5: a copy attempt failing with OS error 1 or 93 below the configured
maximum logs a retry note, increments the counter and re-enqueues at LOW
without emitting Fail; a PasteChunk that keeps failing with either code
under maximum N ends in a fatal failure after exactly N+1 attempts with
its retry counter reading N and only retry Log events along the way; and a
copy error that is neither not-found nor OS error 1 or 93 is fatal on the
first attempt. -/
theorem C5_retry_bound :
    (∀ (e : IoErr), e.kind ≠ ErrKind.notFound →
      (e.os = some 1 ∨ e.os = some 93) →
      ∀ (N id : Nat) (f tt : Path) (c fo : Bool),
      runPasteOp N ⟨id, f, tt, c, fo, 0⟩
          (List.replicate (N + 1) (bizarreScript e)) =
        (List.replicate N (TaskProg.Log id pasteRetryMsg),
         ⟨id, f, tt, c, fo, N⟩, N + 1, RunEnd.failed e)) ∧
    (∀ (maxR : Nat) (t : FileOpPaste) (e : IoErr), e.kind ≠ ErrKind.notFound →
      (e.os = some 1 ∨ e.os = some 93) → t.retry < maxR →
      workPaste maxR t none [ChunkRes.err e] =
        ([TaskProg.Log t.id pasteRetryMsg],
         PasteOut.reenq { t with retry := t.retry + 1 } LOW)) ∧
    (∀ (maxR : Nat) (t : FileOpPaste) (e : IoErr), e.kind ≠ ErrKind.notFound →
      e.os ≠ some 1 → e.os ≠ some 93 →
      workPaste maxR t none [ChunkRes.err e] = ([], PasteOut.fatal e)) := by
  refine ⟨?_, ?_, ?_⟩
  · intro e hk hos N id f tt c fo
    have h := runPasteOp_bizarre_chain ⟨id, f, tt, c, fo, 0⟩ e hk hos N 0
    simpa using h
  · intro maxR t e hk hos hlt
    exact workPaste_bizarre_retry maxR t e hk hos hlt
  · intro maxR t e hk h1 h93
    show pasteLoop maxR t [ChunkRes.err e] = ([], PasteOut.fatal e)
    simp only [pasteLoop]
    rw [if_neg hk, if_neg ?hc]
    case hc =>
      intro hcon
      rcases hcon.2 with h | h
      · exact h1 h
      · exact h93 h

/-- C5 witness: under maximum 2, both OS error 1 and OS error 93 give
three attempts, two retry logs and a final counter of 2; a single attempt
with OS error 93 below the maximum re-enqueues at LOW with the counter
incremented; and a plain OS error 7 is fatal at once. -/
theorem C5_witness :
    runPasteOp 2 ⟨0, [nmA], [nmB], false, false, 0⟩
        (List.replicate 3 (bizarreScript permErr)) =
      (List.replicate 2 (TaskProg.Log 0 pasteRetryMsg),
       ⟨0, [nmA], [nmB], false, false, 2⟩, 3, RunEnd.failed permErr) ∧
    runPasteOp 2 ⟨0, [nmA], [nmB], false, false, 0⟩
        (List.replicate 3 (bizarreScript attrErr)) =
      (List.replicate 2 (TaskProg.Log 0 pasteRetryMsg),
       ⟨0, [nmA], [nmB], false, false, 2⟩, 3, RunEnd.failed attrErr) ∧
    workPaste 5 tC1 none [ChunkRes.err attrErr] =
      ([TaskProg.Log 0 pasteRetryMsg],
       PasteOut.reenq ⟨0, [nmA], [nmB], false, false, 1⟩ LOW) ∧
    workPaste 5 tC1 none [ChunkRes.err ⟨ErrKind.other, some 7⟩] =
      ([], PasteOut.fatal ⟨ErrKind.other, some 7⟩) :=
  ⟨C5_retry_bound.1 permErr (by decide) (Or.inl rfl) 2 0 [nmA] [nmB] false false,
   C5_retry_bound.1 attrErr (by decide) (Or.inr rfl) 2 0 [nmA] [nmB] false false,
   C5_retry_bound.2.1 5 tC1 attrErr (by decide) (Or.inr rfl) (by decide),
   C5_retry_bound.2.2 5 tC1 ⟨ErrKind.other, some 7⟩ (by decide) (by decide) (by decide)⟩

/-- C6: deleting a directory tree enqueues exactly one DeleteEntry per
reachable non-directory entry (as a multiset of target paths and lengths)
and none for directories — every enqueue is a Delete at NORMAL carrying
the task id; and the post-order pruner never removes a non-directory node
(it only calls directory removal, which succeeds only on a directory empty
at that moment), so the transitive non-directory contents are preserved
exactly. -/
theorem C6_delete_enqueue_and_prune :
    (∀ t nm mk lk cs ev q,
      deletePlan t (Ent.dir nm mk lk cs) = Except.ok (ev, q) →
      List.Perm (delTargets q)
        (if lk = true then entsReach t.target cs else []) ∧
      ∀ e ∈ q, ∃ d', e.op = FileOp.delete d' ∧ e.prio = NORMAL ∧
        d'.id = t.id ∧ d'.length = e.len) ∧
    (∀ cs, entsNonDir (pruneEnts cs) = entsNonDir cs) ∧
    (∀ e, optNonDir (remove_empty_dirs e) = entNonDir e) := by
  refine ⟨?_, pruneEnts_nonDir, remove_empty_dirs_nonDir⟩
  intro t nm mk lk cs ev q h
  have h2 : (Except.ok ((deleteWalk t [⟨t.target, mk, lk, cs⟩]).1 ++
      [TaskProg.Succ t.id], (deleteWalk t [⟨t.target, mk, lk, cs⟩]).2) :
      Except IoErr (List TaskProg × List Enq)) = Except.ok (ev, q) := h
  obtain ⟨hev, hq⟩ := okPair_inj h2
  subst hq
  constructor
  · have hp := deleteWalk_perm t [⟨t.target, mk, lk, cs⟩]
    simpa [pendReach] using hp
  · exact deleteWalk_shape t _

/-- C6 witness: deleting a directory with one file and one symlink
enqueues exactly those two targets. -/
theorem C6_witness :
    List.Perm
      (delTargets [⟨FileOp.delete ⟨0, [nmA, nmF], 7⟩, NORMAL, 7⟩,
        ⟨FileOp.delete ⟨0, [nmA, nmX], 3⟩, NORMAL, 3⟩])
      (entsReach [nmA] [Ent.file nmF 7, Ent.symlink nmX 3]) ∧
    ∀ e ∈ ([⟨FileOp.delete ⟨0, [nmA, nmF], 7⟩, NORMAL, 7⟩,
        ⟨FileOp.delete ⟨0, [nmA, nmX], 3⟩, NORMAL, 3⟩] : List Enq),
      ∃ d', e.op = FileOp.delete d' ∧ e.prio = NORMAL ∧
        d'.id = 0 ∧ d'.length = e.len :=
  C6_delete_enqueue_and_prune.1 tDel nmD true true
    [Ent.file nmF 7, Ent.symlink nmX 3]
    [TaskProg.New 0 7, TaskProg.New 0 3, TaskProg.Succ 0]
    [⟨FileOp.delete ⟨0, [nmA, nmF], 7⟩, NORMAL, 7⟩,
     ⟨FileOp.delete ⟨0, [nmA, nmX], 3⟩, NORMAL, 3⟩]
    (by simp [deletePlan, deleteWalk, deleteEnts, tDel, NORMAL])

/-- C7 (amended): during a paste directory walk every directory-level
error yields a New(id, 0) immediately followed by Fail(id, message), the
walk never aborts (the Fail count equals the number of error sites, the
New count additionally counts every reachable non-directory entry — also
those after an error in the same directory), and after the whole tree is
drained the trace ends in Succ. Creation and listing errors skip to the
next pending directory; a per-entry metadata error continues with the next
entry of the same directory. -/
theorem C7_walk_error_reporting (t : FileOpPaste) (nm : String) (mk lk : Bool)
    (cs : List Ent) (ev : List TaskProg) (q : List Enq)
    (h : pastePlanMain t (Ent.dir nm mk lk cs) = Except.ok (ev, q)) :
    countFail ev = pendErrs [⟨t.from_, mk, lk, cs⟩] ∧
    countNew ev = pendErrs [⟨t.from_, mk, lk, cs⟩] +
      pendGoods [⟨t.from_, mk, lk, cs⟩] ∧
    FailsPaired t.id ev ∧
    ev.getLast? = some (TaskProg.Succ t.id) := by
  have h2 : (Except.ok ((pasteWalk t t.to_ t.from_.length
      [⟨t.from_, mk, lk, cs⟩]).1 ++ [TaskProg.Succ t.id],
      (pasteWalk t t.to_ t.from_.length [⟨t.from_, mk, lk, cs⟩]).2) :
      Except IoErr (List TaskProg × List Enq)) = Except.ok (ev, q) := h
  obtain ⟨hev, hq⟩ := okPair_inj h2
  subst hev
  refine ⟨?_, ?_, ?_, ?_⟩
  · rw [countFail_append, pasteWalk_countFail]
    simp [countFail]
  · rw [countNew_append, pasteWalk_countNew]
    simp [countNew]
  · exact FailsPaired.append
      (pasteWalk_failsPaired t t.to_ t.from_.length _)
      (FailsPaired.other _ _ (by intro i m hcon; cases hcon) FailsPaired.nil)
  · exact List.getLast?_concat _

/-- C7 witness: a directory with a failing metadata entry followed by a
7-byte file: one Fail paired with New 0, two New events, final Succ. -/
theorem C7_witness :
    countFail [TaskProg.New 0 0, TaskProg.Fail 0 pasteFailMsg,
        TaskProg.New 0 7, TaskProg.Succ 0] =
      pendErrs [⟨[nmA], true, true, [Ent.badMeta nmX, Ent.file nmF 7]⟩] ∧
    countNew [TaskProg.New 0 0, TaskProg.Fail 0 pasteFailMsg,
        TaskProg.New 0 7, TaskProg.Succ 0] =
      pendErrs [⟨[nmA], true, true, [Ent.badMeta nmX, Ent.file nmF 7]⟩] +
        pendGoods [⟨[nmA], true, true, [Ent.badMeta nmX, Ent.file nmF 7]⟩] ∧
    FailsPaired 0 [TaskProg.New 0 0, TaskProg.Fail 0 pasteFailMsg,
        TaskProg.New 0 7, TaskProg.Succ 0] ∧
    ([TaskProg.New 0 0, TaskProg.Fail 0 pasteFailMsg, TaskProg.New 0 7,
        TaskProg.Succ 0] : List TaskProg).getLast? = some (TaskProg.Succ 0) :=
  C7_walk_error_reporting tC1 nmD true true [Ent.badMeta nmX, Ent.file nmF 7]
    [TaskProg.New 0 0, TaskProg.Fail 0 pasteFailMsg, TaskProg.New 0 7,
      TaskProg.Succ 0]
    [⟨FileOp.paste ⟨0, [nmA, nmF], [nmB, nmF], false, false, 0⟩, LOW, 7⟩]
    (by simp [pastePlanMain, pasteWalk, pasteEnts, tC1, LOW, List.drop])

/-- C7 counterexample: on a directory whose first entry has a failing
metadata read and whose second entry is a file, the code still processes
the second entry (its New event and enqueue appear), while the claim
version — which moves to the next pending directory after the error —
drops it; the two differ at this input. -/
theorem C7_counterexample :
    pastePlanMain tC1 srcC7 =
      Except.ok ([TaskProg.New 0 0, TaskProg.Fail 0 pasteFailMsg,
        TaskProg.New 0 7, TaskProg.Succ 0],
        [⟨FileOp.paste ⟨0, [nmA, nmF], [nmB, nmF], false, false, 0⟩, LOW, 7⟩]) ∧
    pastePlanClaimC7 tC1 srcC7 =
      Except.ok ([TaskProg.New 0 0, TaskProg.Fail 0 pasteFailMsg,
        TaskProg.Succ 0], []) ∧
    pastePlanMain tC1 srcC7 ≠ pastePlanClaimC7 tC1 srcC7 := by
  have h1 : pastePlanMain tC1 srcC7 =
      Except.ok ([TaskProg.New 0 0, TaskProg.Fail 0 pasteFailMsg,
        TaskProg.New 0 7, TaskProg.Succ 0],
        [⟨FileOp.paste ⟨0, [nmA, nmF], [nmB, nmF], false, false, 0⟩, LOW, 7⟩]) := by
    simp [pastePlanMain, pasteWalk, pasteEnts, tC1, srcC7, LOW, List.drop]
  have h2 : pastePlanClaimC7 tC1 srcC7 =
      Except.ok ([TaskProg.New 0 0, TaskProg.Fail 0 pasteFailMsg,
        TaskProg.Succ 0], []) := by
    simp [pastePlanClaimC7, pasteWalkClaim, pasteEntsClaim, tC1, srcC7, List.drop]
  refine ⟨h1, h2, ?_⟩
  rw [h1, h2]
  intro hcon
  exact absurd (okPair_inj hcon).1 (by decide)

/-- C8: pushing a message while one is pending extends the new timeout by
exactly the elapsed time since the first pending message was created and
raises the UI refresh; with none pending the timeout is unchanged. -/
theorem C8_notify_push (st : Notify) (msg : Message) (now : Nat) :
    (∀ m rest, st.messages = m :: rest → m.instant ≤ now →
      (st.push msg now).1.messages =
        st.messages ++ [{ msg with timeout := msg.timeout + (now - m.instant) }] ∧
      (st.push msg now).2 = true) ∧
    (st.messages = [] →
      (st.push msg now).1.messages = [msg] ∧ (st.push msg now).2 = true) := by
  constructor
  · intro m rest hm hle
    refine ⟨?_, rfl⟩
    simp [Notify.push, hm]
  · intro hm
    refine ⟨?_, rfl⟩
    simp [Notify.push, hm]

/-- C8 witness: one message pending since instant 10, pushing at instant
30 extends the 7-tick timeout by 20. -/
theorem C8_witness :
    (Notify.push ⟨[⟨5, 10⟩]⟩ ⟨7, 30⟩ 30).1.messages =
      [⟨5, 10⟩] ++ [{ (⟨7, 30⟩ : Message) with timeout := 7 + (30 - 10) }] ∧
    (Notify.push ⟨[⟨5, 10⟩]⟩ ⟨7, 30⟩ 30).2 = true :=
  (C8_notify_push ⟨[⟨5, 10⟩]⟩ ⟨7, 30⟩ 30).1 ⟨5, 10⟩ [] rfl (by decide)

/-- C9: every Link operation this core enqueues — by the link planner or
by paste converting a symlink — carries meta = some, so the executor
unconditional meta unwrap cannot hit none on operations enqueued here. -/
theorem C9_link_meta_always_some :
    (∀ t rn src ev q, pastePlan t rn src = Except.ok (ev, q) →
      ∀ e ∈ q, ∀ l, e.op = FileOp.link l → l.meta.isSome = true) ∧
    (∀ t mres ev q, linkPlan t mres = Except.ok (ev, q) →
      ∀ e ∈ q, ∀ l, e.op = FileOp.link l → l.meta.isSome = true) := by
  constructor
  · intro t rn src ev q h e he l hop
    obtain ⟨-, -, -, hprop⟩ := pastePlan_props t rn src ev q h
    rcases hprop e he with ⟨p, hop', -⟩ | ⟨l', hop', -, -, hm, -⟩
    · rw [hop] at hop'
      exact FileOp.noConfusion hop'
    · rw [hop] at hop'
      injection hop' with hl
      subst hl
      rw [hm]
      rfl
  · intro t mres ev q h e he l hop
    obtain ⟨l', hop', -, hsome⟩ := linkPlan_shape t mres ev q h e he
    rw [hop] at hop'
    injection hop' with hl
    rw [← hl] at hsome
    exact hsome

/-- C9 witness: a link planned without stored metadata is enqueued with
the freshly read metadata present. -/
theorem C9_witness :
    ({ tLnk with meta := some ⟨FileKind.file, 5⟩ } : FileOpLink).meta.isSome =
      true :=
  C9_link_meta_always_some.2 tLnk (Except.ok ⟨FileKind.file, 5⟩)
    [TaskProg.New 1 5, TaskProg.Succ 1]
    [⟨FileOp.link { tLnk with meta := some ⟨FileKind.file, 5⟩ }, NORMAL, 5⟩]
    rfl ⟨FileOp.link { tLnk with meta := some ⟨FileKind.file, 5⟩ }, NORMAL, 5⟩
    (List.mem_singleton.mpr rfl)
    { tLnk with meta := some ⟨FileKind.file, 5⟩ } rfl

/-- C10: every LinkCreate the paste planner enqueues for a symlink carries
resolve = true, relative = false and delete_source equal to the request's
cut flag. -/
theorem C10_paste_symlink_link_fields (t : FileOpPaste) (rn : Option IoErr)
    (src : Ent) (ev : List TaskProg) (q : List Enq)
    (h : pastePlan t rn src = Except.ok (ev, q)) :
    ∀ e ∈ q, ∀ l, e.op = FileOp.link l →
      l.resolve = true ∧ l.relative = false ∧ l.delete = t.cut := by
  intro e he l hop
  obtain ⟨-, -, -, hprop⟩ := pastePlan_props t rn src ev q h
  rcases hprop e he with ⟨p, hop', -⟩ | ⟨l', hop', -, -, -, hres, hrel, hdel⟩
  · rw [hop] at hop'
    exact FileOp.noConfusion hop'
  · rw [hop] at hop'
    injection hop' with hl
    subst hl
    exact ⟨hres, hrel, hdel⟩

/-- C10 witness: a cut paste of a single symlink (rename failing with a
non-tolerated error) enqueues its to_link conversion with resolve set,
relative unset and delete equal to cut. -/
theorem C10_witness :
    (FileOpPaste.to_link tC4 ⟨FileKind.symlink, 3⟩).resolve = true ∧
    (FileOpPaste.to_link tC4 ⟨FileKind.symlink, 3⟩).relative = false ∧
    (FileOpPaste.to_link tC4 ⟨FileKind.symlink, 3⟩).delete = tC4.cut :=
  C10_paste_symlink_link_fields tC4 (some ⟨ErrKind.other, none⟩)
    (Ent.symlink nmA 3) [TaskProg.New 0 3, TaskProg.Succ 0]
    [⟨FileOp.link (FileOpPaste.to_link tC4 ⟨FileKind.symlink, 3⟩), NORMAL, 3⟩]
    rfl ⟨FileOp.link (FileOpPaste.to_link tC4 ⟨FileKind.symlink, 3⟩), NORMAL, 3⟩
    (List.mem_singleton.mpr rfl)
    (FileOpPaste.to_link tC4 ⟨FileKind.symlink, 3⟩) rfl

end Yazi
